import Mathlib

/-!
# cachekit: a mutex-guarded generic map

Verification development for `cachekit.go`.

The Go type `CacheKit[K comparable, V any]` holds a `sync.RWMutex` and a
`map[K]V`.  Every method takes the lock, performs one map operation and
releases the lock, so a method call is one atomic step on the map; the
embedding below is the sequential semantics of these steps (the lock itself
is not represented).

A Go map finds the entry of a key with the operator `==` of the key type.  On a
`comparable` type this operator need not hold between a key and itself: a
`float64` NaN differs from itself, and so does a struct, array or interface
holding one.  Such a key is never found again: looking it up misses, assigning
to it adds a further entry, deleting it removes nothing.  The operator is the
field `eq` of the class `Comparable`.

A Go map value is either `nil` or a reference to a hash table.  A hash table is
represented by the list of its entries, no two of which have `==` keys.
Reading, `len`, `delete` and `range` treat a nil map like an empty one;
assigning to an entry of a nil map panics.  A panic is the result `none`.

The order in which `range` visits the entries is chosen by the runtime; it is
an explicit argument (`RangeOrder`) of the methods that iterate.
-/

namespace Cachekit

universe u v

/-- A Go key type (constraint `comparable`) with its operator `==`.  Keys that
`==` holds between are the same key (values that `==` identifies, such as the
two zeros of `float64`, are taken as one key), but `==` may fail between a key
and itself. -/
class Comparable (K : Type u) where
  eq : K → K → Bool
  eq_imp : ∀ a b : K, eq a b = true → a = b

/-- The Go expression `a == b` on keys. -/
abbrev keq {K : Type u} [Comparable K] (a b : K) : Bool := Comparable.eq a b

/-- Keys of a Go integer type: `==` is equality. -/
instance : Comparable Nat where
  eq a b := decide (a = b)
  eq_imp := fun _ _ h => of_decide_eq_true h

/-- Keys of Go type `float64`, as far as `==` tells them apart: a NaN, or a
number (here the floats with an integer value). -/
inductive Float64 where
  | nan
  | num (n : Int)
  deriving DecidableEq, Repr

/-- The operator `==` of `float64`: a NaN is equal to nothing, not even to
itself; numbers are compared by value. -/
def Float64.eq : Float64 → Float64 → Bool
  | .num a, .num b => decide (a = b)
  | _, _ => false

theorem Float64.eq_imp (a b : Float64) (h : Float64.eq a b = true) : a = b := by
  cases a <;> cases b <;> simp [Float64.eq] at h
  rw [h]

instance : Comparable Float64 where
  eq := Float64.eq
  eq_imp := Float64.eq_imp

variable {K : Type u} {V : Type v}

/-! ## Entry lists -/

/-- The keys of an entry list, in order. -/
def entryKeys (es : List (K × V)) : List K := es.map Prod.fst

/-- The value of the first entry whose key is `==` to `k`. -/
def lookupEntries [Comparable K] (k : K) : List (K × V) → Option V
  | [] => none
  | (k', v') :: es => if keq k' k then some v' else lookupEntries k es

/-- Store `v` under `k`: overwrite the entry whose key is `==` to `k`, or add a
new entry when there is none. -/
def assignEntries [Comparable K] (k : K) (v : V) : List (K × V) → List (K × V)
  | [] => [(k, v)]
  | (k', v') :: es => if keq k' k then (k, v) :: es else (k', v') :: assignEntries k v es

/-- Remove the entry whose key is `==` to `k`, if there is one. -/
def deleteEntries [Comparable K] (k : K) : List (K × V) → List (K × V)
  | [] => []
  | (k', v') :: es => if keq k' k then es else (k', v') :: deleteEntries k es

/-- No two entries have `==` keys. -/
def DistinctKeys [Comparable K] (es : List (K × V)) : Prop :=
  es.Pairwise (fun a b => keq a.1 b.1 = false)

/-! ## Go maps -/

/-- A hash table: finitely many entries, no two of them with `==` keys. -/
structure HTable (K : Type u) (V : Type v) [Comparable K] where
  entries : List (K × V)
  distinct : DistinctKeys entries

/-- A Go value of type `map[K]V`: `none` is the nil map. -/
abbrev GoMap (K : Type u) (V : Type v) [Comparable K] := Option (HTable K V)

/-- The error built by `fmt.Errorf("key %v does not exist", key)`. -/
inductive Error (K : Type u) where
  | keyDoesNotExist (key : K)
  deriving DecidableEq, Repr

/-! ### Assignment and deletion keep the keys apart

These facts are needed to define the map operations below. -/

theorem keq_symm [Comparable K] (a b : K) : keq a b = keq b a := by
  cases hab : keq a b with
  | true =>
    have e := Comparable.eq_imp a b hab
    subst e
    exact hab.symm
  | false =>
    cases hba : keq b a with
    | false => rfl
    | true =>
      have e := Comparable.eq_imp b a hba
      subst e
      rw [hab] at hba
      exact hba

theorem mem_assignEntries [Comparable K] (k : K) (v : V) (es : List (K × V)) (e : K × V)
    (h : e ∈ assignEntries k v es) : e.1 = k ∨ e ∈ es := by
  induction es with
  | nil =>
    simp only [assignEntries, List.mem_singleton] at h
    exact Or.inl (by rw [h])
  | cons e₀ es ih =>
    obtain ⟨k₀, v₀⟩ := e₀
    by_cases hk : keq k₀ k = true
    · simp only [assignEntries, hk, if_true] at h
      cases List.mem_cons.1 h with
      | inl h₁ => exact Or.inl (by rw [h₁])
      | inr h₁ => exact Or.inr (List.mem_cons_of_mem _ h₁)
    · simp only [assignEntries, hk] at h
      cases List.mem_cons.1 h with
      | inl h₁ => exact Or.inr (by rw [h₁]; exact List.mem_cons_self _ _)
      | inr h₁ =>
        rcases ih h₁ with h' | h'
        · exact Or.inl h'
        · exact Or.inr (List.mem_cons_of_mem _ h')

theorem distinct_assignEntries [Comparable K] (k : K) (v : V) (es : List (K × V))
    (h : DistinctKeys es) : DistinctKeys (assignEntries k v es) := by
  induction es with
  | nil => simp [assignEntries, DistinctKeys]
  | cons e₀ es ih =>
    obtain ⟨k₀, v₀⟩ := e₀
    have h' := List.pairwise_cons.1 h
    by_cases hk : keq k₀ k = true
    · have e := Comparable.eq_imp k₀ k hk
      subst e
      simp only [assignEntries, hk, if_true]
      exact List.pairwise_cons.2 ⟨h'.1, h'.2⟩
    · simp only [assignEntries, hk]
      refine List.pairwise_cons.2 ⟨?_, ih h'.2⟩
      intro e he
      rcases mem_assignEntries k v es e he with h₁ | h₁
      · rw [h₁]
        simpa using hk
      · exact h'.1 e h₁

theorem deleteEntries_sublist [Comparable K] (k : K) (es : List (K × V)) :
    (deleteEntries k es).Sublist es := by
  induction es with
  | nil => exact List.Sublist.refl _
  | cons e₀ es ih =>
    obtain ⟨k₀, v₀⟩ := e₀
    by_cases hk : keq k₀ k = true
    · simp only [deleteEntries, hk, if_true]
      exact List.sublist_cons_self _ _
    · simp only [deleteEntries, hk]
      exact ih.cons₂ _

theorem distinct_deleteEntries [Comparable K] (k : K) (es : List (K × V))
    (h : DistinctKeys es) : DistinctKeys (deleteEntries k es) :=
  List.Pairwise.sublist (deleteEntries_sublist k es) h

namespace GoMap

/-- The entries of a map; a nil map has none. -/
def entries [Comparable K] : GoMap K V → List (K × V)
  | none => []
  | some t => t.entries

/-- The builtin `make(map[K]V)` (also with a capacity hint): a fresh empty table. -/
def make [Comparable K] : GoMap K V := some ⟨[], List.Pairwise.nil⟩

/-- The two-result index expression `v, ok := m[key]`; the zero value of `V` is
`default`. -/
def access [Comparable K] [Inhabited V] (m : GoMap K V) (key : K) : V × Bool :=
  match lookupEntries key m.entries with
  | some v => (v, true)
  | none => (default, false)

/-- The statement `m[key] = value`; it panics (`none`) on a nil map. -/
def assign [Comparable K] (m : GoMap K V) (key : K) (value : V) : Option (GoMap K V) :=
  match m with
  | none => none
  | some t => some (some ⟨assignEntries key value t.entries,
      distinct_assignEntries key value t.entries t.distinct⟩)

/-- The builtin `delete(m, key)`; a no-op on a nil map and on an absent key. -/
def delete [Comparable K] (m : GoMap K V) (key : K) : GoMap K V :=
  match m with
  | none => none
  | some t => some ⟨deleteEntries key t.entries,
      distinct_deleteEntries key t.entries t.distinct⟩

/-- The builtin `len(m)`: the number of entries (a Go `int` that is never
negative, here a natural number). -/
def len [Comparable K] (m : GoMap K V) : Nat := m.entries.length

end GoMap

/-- One traversal `for k, v := range m`: the runtime visits every entry exactly
once, in an order of its choosing. -/
structure RangeOrder [Comparable K] (m : GoMap K V) where
  seq : List (K × V)
  perm : seq.Perm m.entries

/-- The traversal that visits the entries in table order. -/
def RangeOrder.inOrder [Comparable K] (m : GoMap K V) : RangeOrder m :=
  ⟨m.entries, List.Perm.refl _⟩

/-- The traversal that visits the entries in reverse table order. -/
def RangeOrder.reversed [Comparable K] (m : GoMap K V) : RangeOrder m :=
  ⟨m.entries.reverse, List.reverse_perm _⟩

/-! ## The cache -/

/-- The struct `CacheKit[K, V]` (field `mu` is not represented). -/
structure CacheKit (K : Type u) (V : Type v) [Comparable K] where
  data : GoMap K V

/-- `New`. -/
def New [Comparable K] : CacheKit K V := { data := GoMap.make }

/-- The zero value `CacheKit[K, V]{}`, whose `data` is the nil map. -/
def zeroValue [Comparable K] : CacheKit K V := { data := none }

namespace CacheKit

/-- `Get`. -/
def Get [Comparable K] [Inhabited V] (c : CacheKit K V) (key : K) : V × Bool :=
  let (v, ok) := c.data.access key
  (v, ok)

/-- `Set`: the cache after the call, `none` when the call panics. -/
def Set [Comparable K] (c : CacheKit K V) (key : K) (value : V) : Option (CacheKit K V) :=
  match c.data.assign key value with
  | none => none
  | some d => some { c with data := d }

/-- `Update`: the cache after the call and the returned error (`none` is the
`nil` error); the outer `none` is a panic. -/
def Update [Comparable K] [Inhabited V] (c : CacheKit K V) (key : K) (value : V) :
    Option (CacheKit K V × Option (Error K)) :=
  if !(c.data.access key).2 then
    some (c, some (Error.keyDoesNotExist key))
  else
    match c.data.assign key value with
    | none => none
    | some d => some ({ c with data := d }, none)

/-- `Delete`. -/
def Delete [Comparable K] (c : CacheKit K V) (key : K) : CacheKit K V :=
  { c with data := c.data.delete key }

/-- `Len`. -/
def Len [Comparable K] (c : CacheKit K V) : Nat := c.data.len

/-- `Clear`. -/
def Clear [Comparable K] (c : CacheKit K V) : CacheKit K V := { c with data := GoMap.make }

/-- `Keys`: the loop appends each visited key to an initially empty slice. -/
def Keys [Comparable K] (c : CacheKit K V) (r : RangeOrder c.data) : List K :=
  r.seq.foldl (fun keys e => keys ++ [e.1]) []

/-- `Values`: the loop appends each visited value to an initially empty slice. -/
def Values [Comparable K] (c : CacheKit K V) (r : RangeOrder c.data) : List V :=
  r.seq.foldl (fun values e => values ++ [e.2]) []

/-- `Items`: the loop assigns each visited entry into a fresh map; `none` when an
assignment panics. -/
def Items [Comparable K] (c : CacheKit K V) (r : RangeOrder c.data) : Option (GoMap K V) :=
  r.seq.foldl (fun items e => items.bind (fun m => m.assign e.1 e.2)) (some GoMap.make)

/-- `Has`. -/
def Has [Comparable K] [Inhabited V] (c : CacheKit K V) (key : K) : Bool :=
  (c.data.access key).2

/-- Whether every key held by the cache is `==` to itself (no NaN among the
keys). -/
def selfEqualKeys [Comparable K] (c : CacheKit K V) : Bool :=
  c.data.entries.all (fun e => keq e.1 e.1)

end CacheKit

/-! ## Sequences of calls -/

/-- A mutating call. -/
inductive Op (K : Type u) (V : Type v) where
  | set (key : K) (value : V)
  | update (key : K) (value : V)
  | delete (key : K)
  | clear

/-- The cache after one mutating call, `none` when the call panics. -/
def Op.apply [Comparable K] [Inhabited V] (c : CacheKit K V) : Op K V → Option (CacheKit K V)
  | .set key value => c.Set key value
  | .update key value => (c.Update key value).map Prod.fst
  | .delete key => some (c.Delete key)
  | .clear => some c.Clear

/-- The cache after a sequence of mutating calls, made one after the other. -/
def runOps [Comparable K] [Inhabited V] (c : CacheKit K V) : List (Op K V) → Option (CacheKit K V)
  | [] => some c
  | op :: ops => (op.apply c).bind (fun c' => runOps c' ops)

/-- Whether the call is no `Set` of a key that differs from itself. -/
def Op.selfEqualKey [Comparable K] : Op K V → Bool
  | .set key _ => keq key key
  | _ => true

/-- The entry list after assigning, one after the other, the entries of `l`. -/
def assignAll [Comparable K] (l : List (K × V)) (es : List (K × V)) : List (K × V) :=
  l.foldl (fun acc e => assignEntries e.1 e.2 acc) es

/-! ## Read-only calls -/

/-- A call of one of the read-only methods, with its argument. -/
inductive Query (K : Type u) where
  | get (key : K)
  | has (key : K)
  | len
  | keys
  | values
  | items

/-- What a read-only call returns. -/
inductive Answer (K : Type u) (V : Type v) [Comparable K] where
  | get (value : V) (found : Bool)
  | has (found : Bool)
  | len (n : Nat)
  | keys (ks : List K)
  | values (vs : List V)
  | items (m : Option (GoMap K V))

/-- A read-only call on the receiver `c`, as a step on the state: the receiver
after the call and what the call returns.  No statement of these six methods
assigns to `c.data` or to an entry of it (`Keys`, `Values` and `Items` write to
a slice or map of their own), so the receiver after the call holds the map it
held before.  `r` is the order the call's `range` loop takes, if it has one. -/
def Query.call [Comparable K] [Inhabited V] (c : CacheKit K V) (r : RangeOrder c.data) :
    Query K → CacheKit K V × Answer K V
  | .get key => (c, .get (c.Get key).1 (c.Get key).2)
  | .has key => (c, .has (c.Has key))
  | .len => (c, .len c.Len)
  | .keys => (c, .keys (c.Keys r))
  | .values => (c, .values (c.Values r))
  | .items => (c, .items (c.Items r))

/-- A call of any method: a mutating one or a read-only one. -/
inductive Call (K : Type u) (V : Type v) where
  | mutate (op : Op K V)
  | query (q : Query K)

/-- The cache after one call, `none` when the call panics.  A read-only call
hands on the receiver of `Query.call`; its answer, and with it the order of its
traversal, plays no part in the state. -/
def Call.apply [Comparable K] [Inhabited V] (c : CacheKit K V) :
    Call K V → Option (CacheKit K V)
  | .mutate op => op.apply c
  | .query q => some (q.call c (RangeOrder.inOrder c.data)).1

/-- The cache after a sequence of calls, made one after the other. -/
def runCalls [Comparable K] [Inhabited V] (c : CacheKit K V) :
    List (Call K V) → Option (CacheKit K V)
  | [] => some c
  | call :: calls => (call.apply c).bind (fun c' => runCalls c' calls)

/-! ## Two mutating calls on two keys -/

/-- One of `Set`, `Update`, `Delete`, with its value argument (the key is given
apart). -/
inductive KeyOp (V : Type v) where
  | set (value : V)
  | update (value : V)
  | delete

/-- Whether the call is a `Set`. -/
def KeyOp.isSet : KeyOp V → Bool
  | .set _ => true
  | _ => false

/-- The call made on `key`: the cache after it and the error it returns (`Set`
and `Delete` return none); `none` when the call panics. -/
def KeyOp.apply [Comparable K] [Inhabited V] (c : CacheKit K V) (key : K) :
    KeyOp V → Option (CacheKit K V × Option (Error K))
  | .set value => (c.Set key value).map (fun c' => (c', none))
  | .update value => c.Update key value
  | .delete => some (c.Delete key, none)

/-- First `o₁` on `k₁`, then `o₂` on `k₂`: the final cache and the two error
results, of the first and of the second call. -/
def runPair [Comparable K] [Inhabited V] (c : CacheKit K V) (k₁ : K) (o₁ : KeyOp V)
    (k₂ : K) (o₂ : KeyOp V) : Option (CacheKit K V × Option (Error K) × Option (Error K)) :=
  match o₁.apply c k₁ with
  | none => none
  | some (c₁, e₁) =>
    match o₂.apply c₁ k₂ with
    | none => none
    | some (c₂, e₂) => some (c₂, e₁, e₂)

/-- What `Get(key)` returns after the call, from what it returned before and
from whether `key == key`. -/
def KeyOp.after [Inhabited V] : KeyOp V → Bool → V × Bool → V × Bool
  | .set value, selfEq, _ => if selfEq then (value, true) else (default, false)
  | .update value, _, g => if g.2 then (value, true) else g
  | .delete, _, _ => (default, false)

/-- The error the call returns, from whether the key was present before. -/
def KeyOp.err (key : K) : KeyOp V → Bool → Option (Error K)
  | .update _, false => some (Error.keyDoesNotExist key)
  | _, _ => none

/-- By how much the call changes `Len()`, from whether the key was present
before. -/
def KeyOp.delta : KeyOp V → Bool → Int
  | .set _, false => 1
  | .delete, true => -1
  | _, _ => 0

/-! ## Sample states -/

/-- The cache of the tests with numeric keys: `1 ↦ 10`, `2 ↦ 20`, `3 ↦ 30`. -/
def sample : CacheKit Nat Int :=
  { data := some ⟨[(1, 10), (2, 20), (3, 30)], by unfold DistinctKeys; decide⟩ }

/-- A cache with `float64` keys made by `New()`. -/
def floatCache : CacheKit Float64 Int := New

/-! # Theorems -/

/-! ## Entry-list lemmas -/

theorem keq_self_of_keq [Comparable K] (a b : K) (h : keq a b = true) :
    keq b b = true := by
  have e := Comparable.eq_imp a b h
  subst e
  exact h

theorem lookupEntries_isSome_iff [Comparable K] (k : K) (es : List (K × V)) :
    (lookupEntries k es).isSome = true ↔ keq k k = true ∧ k ∈ entryKeys es := by
  induction es with
  | nil => simp [lookupEntries, entryKeys]
  | cons e₀ es ih =>
    obtain ⟨k₀, v₀⟩ := e₀
    cases hk : keq k₀ k with
    | true =>
      have e := Comparable.eq_imp k₀ k hk
      subst e
      simp [lookupEntries, entryKeys, hk]
    | false =>
      simp only [lookupEntries, hk, Bool.false_eq_true, if_false, ih, entryKeys, List.map_cons,
        List.mem_cons]
      constructor
      · rintro ⟨h₁, h₂⟩
        exact ⟨h₁, Or.inr h₂⟩
      · rintro ⟨h₁, h₂ | h₂⟩
        · rw [← h₂, h₁] at hk
          exact absurd hk (by simp)
        · exact ⟨h₁, h₂⟩

theorem lookupEntries_eq_none_iff [Comparable K] (k : K) (es : List (K × V)) :
    lookupEntries k es = none ↔ ¬ (keq k k = true ∧ k ∈ entryKeys es) := by
  rw [← lookupEntries_isSome_iff]
  cases lookupEntries k es <;> simp

theorem lookupEntries_eq_none_of_forall [Comparable K] (k : K) (es : List (K × V))
    (h : ∀ e ∈ es, keq e.1 k = false) : lookupEntries k es = none := by
  induction es with
  | nil => rfl
  | cons e₀ es ih =>
    obtain ⟨k₀, v₀⟩ := e₀
    have h₀ : keq k₀ k = false := h (k₀, v₀) (List.mem_cons_self _ _)
    simp only [lookupEntries, h₀, Bool.false_eq_true, if_false]
    exact ih (fun e he => h e (List.mem_cons_of_mem _ he))

theorem lookupEntries_assignEntries [Comparable K] (k k' : K) (v : V) (es : List (K × V)) :
    lookupEntries k' (assignEntries k v es) =
      if keq k k' then some v else lookupEntries k' es := by
  induction es with
  | nil => simp [lookupEntries, assignEntries]
  | cons e₀ es ih =>
    obtain ⟨k₀, v₀⟩ := e₀
    cases h : keq k₀ k with
    | true =>
      have e := Comparable.eq_imp k₀ k h
      subst e
      cases h' : keq k₀ k' <;> simp [lookupEntries, assignEntries, h, h']
    | false =>
      cases h₁ : keq k₀ k' with
      | true =>
        cases h₂ : keq k k' with
        | true =>
          have e₁ := Comparable.eq_imp k₀ k' h₁
          have e₂ := Comparable.eq_imp k k' h₂
          subst e₁
          subst e₂
          rw [h₁] at h
          exact absurd h (by simp)
        | false => simp [lookupEntries, assignEntries, h, h₁]
      | false => simp [lookupEntries, assignEntries, h, h₁, ih]

theorem lookupEntries_deleteEntries [Comparable K] (k k' : K) (es : List (K × V))
    (hd : DistinctKeys es) :
    lookupEntries k' (deleteEntries k es) =
      if keq k k' then none else lookupEntries k' es := by
  induction es with
  | nil => simp [lookupEntries, deleteEntries]
  | cons e₀ es ih =>
    obtain ⟨k₀, v₀⟩ := e₀
    have hd' := List.pairwise_cons.1 hd
    cases h : keq k₀ k with
    | true =>
      have e := Comparable.eq_imp k₀ k h
      subst e
      cases h' : keq k₀ k' with
      | true =>
        have e' := Comparable.eq_imp k₀ k' h'
        subst e'
        simp only [deleteEntries, h, if_true]
        exact lookupEntries_eq_none_of_forall k₀ es (fun e he => by
          rw [keq_symm]
          exact hd'.1 e he)
      | false => simp [lookupEntries, deleteEntries, h, h']
    | false =>
      cases h₁ : keq k₀ k' with
      | true =>
        cases h₂ : keq k k' with
        | true =>
          have e₁ := Comparable.eq_imp k₀ k' h₁
          have e₂ := Comparable.eq_imp k k' h₂
          subst e₁
          subst e₂
          rw [h₁] at h
          exact absurd h (by simp)
        | false => simp [lookupEntries, deleteEntries, h, h₁]
      | false => simp [lookupEntries, deleteEntries, h, h₁, ih hd'.2]

theorem length_assignEntries [Comparable K] (k : K) (v : V) (es : List (K × V)) :
    (assignEntries k v es).length =
      if (lookupEntries k es).isSome = true then es.length else es.length + 1 := by
  induction es with
  | nil => simp [assignEntries, lookupEntries]
  | cons e₀ es ih =>
    obtain ⟨k₀, v₀⟩ := e₀
    cases h : keq k₀ k with
    | true => simp [assignEntries, lookupEntries, h]
    | false =>
      simp only [assignEntries, lookupEntries, h, Bool.false_eq_true, if_false,
        List.length_cons, ih]
      split <;> rfl

theorem length_deleteEntries [Comparable K] (k : K) (es : List (K × V)) :
    (deleteEntries k es).length + (if (lookupEntries k es).isSome = true then 1 else 0) =
      es.length := by
  induction es with
  | nil => simp [deleteEntries, lookupEntries]
  | cons e₀ es ih =>
    obtain ⟨k₀, v₀⟩ := e₀
    cases h : keq k₀ k with
    | true => simp [deleteEntries, lookupEntries, h]
    | false =>
      simp only [deleteEntries, lookupEntries, h, Bool.false_eq_true, if_false,
        List.length_cons]
      omega

theorem deleteEntries_of_lookup_none [Comparable K] (k : K) (es : List (K × V))
    (h : lookupEntries k es = none) : deleteEntries k es = es := by
  induction es with
  | nil => rfl
  | cons e₀ es ih =>
    obtain ⟨k₀, v₀⟩ := e₀
    cases hk : keq k₀ k with
    | true => simp [lookupEntries, hk] at h
    | false =>
      simp only [lookupEntries, hk, Bool.false_eq_true, if_false] at h
      simp [deleteEntries, hk, ih h]

/-! ## Map-level lemmas -/

theorem access_snd_eq_isSome [Comparable K] [Inhabited V] (m : GoMap K V) (k : K) :
    (m.access k).2 = (lookupEntries k m.entries).isSome := by
  unfold GoMap.access
  cases lookupEntries k m.entries <;> rfl

theorem access_of_lookup_none [Comparable K] [Inhabited V] (m : GoMap K V) (k : K)
    (h : lookupEntries k m.entries = none) : m.access k = (default, false) := by
  unfold GoMap.access
  rw [h]

theorem access_of_lookup_some [Comparable K] [Inhabited V] (m : GoMap K V) (k : K) (v : V)
    (h : lookupEntries k m.entries = some v) : m.access k = (v, true) := by
  unfold GoMap.access
  rw [h]

theorem access_eq_of_lookup_eq [Comparable K] [Inhabited V] (m m' : GoMap K V) (k : K)
    (h : lookupEntries k m'.entries = lookupEntries k m.entries) :
    m'.access k = m.access k := by
  unfold GoMap.access
  rw [h]

theorem access_snd_eq_false_iff [Comparable K] [Inhabited V] (m : GoMap K V) (k : K) :
    (m.access k).2 = false ↔ lookupEntries k m.entries = none := by
  rw [access_snd_eq_isSome]
  cases lookupEntries k m.entries <;> simp

theorem GoMap.distinct_entries [Comparable K] (m : GoMap K V) : DistinctKeys m.entries := by
  cases m with
  | none => exact List.Pairwise.nil
  | some t => exact t.distinct

/-! ## Cache-level lemmas -/

theorem keq_eq_false_of_ne [Comparable K] (a b : K) (h : a ≠ b) : keq a b = false := by
  cases hab : keq a b with
  | false => rfl
  | true => exact absurd (Comparable.eq_imp a b hab) h

theorem Get_eq_access [Comparable K] [Inhabited V] (c : CacheKit K V) (k : K) :
    c.Get k = c.data.access k := rfl

theorem Has_eq_Get_snd [Comparable K] [Inhabited V] (c : CacheKit K V) (k : K) :
    c.Has k = (c.Get k).2 := rfl

theorem Has_eq_isSome [Comparable K] [Inhabited V] (c : CacheKit K V) (k : K) :
    c.Has k = (lookupEntries k c.data.entries).isSome :=
  access_snd_eq_isSome c.data k

theorem Has_eq_true_iff [Comparable K] [Inhabited V] (c : CacheKit K V) (k : K) :
    c.Has k = true ↔ keq k k = true ∧ k ∈ entryKeys c.data.entries := by
  rw [Has_eq_isSome, lookupEntries_isSome_iff]

theorem Has_eq_false_iff [Comparable K] [Inhabited V] (c : CacheKit K V) (k : K) :
    c.Has k = false ↔ lookupEntries k c.data.entries = none :=
  access_snd_eq_false_iff c.data k

theorem Set_of_table [Comparable K] (c : CacheKit K V) (t : HTable K V) (k : K) (v : V)
    (h : c.data = some t) :
    c.Set k v = some { data := some ⟨assignEntries k v t.entries,
      distinct_assignEntries k v t.entries t.distinct⟩ } := by
  obtain ⟨d⟩ := c
  simp only at h
  subst h
  rfl

theorem data_eq_some_of_isSome [Comparable K] (c : CacheKit K V) (h : c.data.isSome = true) :
    ∃ t, c.data = some t :=
  Option.isSome_iff_exists.1 h

theorem data_isSome_of_Has [Comparable K] [Inhabited V] (c : CacheKit K V) (k : K)
    (h : c.Has k = true) : c.data.isSome = true := by
  cases hd : c.data with
  | some t => rfl
  | none =>
    have := ((Has_eq_true_iff c k).1 h).2
    rw [hd] at this
    simp [GoMap.entries, entryKeys] at this

theorem Set_isSome [Comparable K] (c c' : CacheKit K V) (k : K) (v : V)
    (h : c.Set k v = some c') : c.data.isSome = true ∧ c'.data.isSome = true := by
  obtain ⟨d⟩ := c
  cases d with
  | none => simp [CacheKit.Set, GoMap.assign] at h
  | some t =>
    rw [Set_of_table ⟨some t⟩ t k v rfl] at h
    cases h
    exact ⟨rfl, rfl⟩

theorem lookup_Set [Comparable K] (c c' : CacheKit K V) (k k' : K) (v : V)
    (h : c.Set k v = some c') :
    lookupEntries k' c'.data.entries =
      if keq k k' then some v else lookupEntries k' c.data.entries := by
  obtain ⟨t, ht⟩ := data_eq_some_of_isSome c (Set_isSome c c' k v h).1
  rw [Set_of_table c t k v ht] at h
  cases h
  simp only [GoMap.entries, ht, lookupEntries_assignEntries]

theorem Get_Set_same [Comparable K] [Inhabited V] (c c' : CacheKit K V) (k : K) (v : V)
    (h : c.Set k v = some c') (hk : keq k k = true) : c'.Get k = (v, true) := by
  rw [Get_eq_access]
  apply access_of_lookup_some
  rw [lookup_Set c c' k k v h, if_pos hk]

theorem Get_Set_of_keq_false [Comparable K] [Inhabited V] (c c' : CacheKit K V) (k k' : K)
    (v : V) (h : c.Set k v = some c') (hne : keq k k' = false) : c'.Get k' = c.Get k' := by
  rw [Get_eq_access, Get_eq_access]
  apply access_eq_of_lookup_eq
  rw [lookup_Set c c' k k' v h, hne]
  rfl

theorem Get_Set_other [Comparable K] [Inhabited V] (c c' : CacheKit K V) (k k' : K) (v : V)
    (h : c.Set k v = some c') (hne : k' ≠ k) : c'.Get k' = c.Get k' :=
  Get_Set_of_keq_false c c' k k' v h (keq_eq_false_of_ne k k' (fun e => hne e.symm))

theorem Len_Set [Comparable K] [Inhabited V] (c c' : CacheKit K V) (k : K) (v : V)
    (h : c.Set k v = some c') : c'.Len = if c.Has k = true then c.Len else c.Len + 1 := by
  obtain ⟨t, ht⟩ := data_eq_some_of_isSome c (Set_isSome c c' k v h).1
  rw [Set_of_table c t k v ht] at h
  cases h
  have hk := Has_eq_isSome c k
  rw [ht] at hk
  simp only [GoMap.entries] at hk
  simp only [CacheKit.Len, GoMap.len, GoMap.entries, ht, length_assignEntries, hk]

theorem Update_of_absent [Comparable K] [Inhabited V] (c : CacheKit K V) (k : K) (v : V)
    (h : c.Has k = false) : c.Update k v = some (c, some (Error.keyDoesNotExist k)) := by
  have h' : (c.data.access k).2 = false := h
  simp [CacheKit.Update, h']

theorem Update_of_present [Comparable K] [Inhabited V] (c : CacheKit K V) (k : K) (v : V)
    (h : c.Has k = true) : ∃ c', c.Set k v = some c' ∧ c.Update k v = some (c', none) := by
  have h' : (c.data.access k).2 = true := h
  obtain ⟨t, ht⟩ := data_eq_some_of_isSome c (data_isSome_of_Has c k h)
  refine ⟨_, Set_of_table c t k v ht, ?_⟩
  obtain ⟨d⟩ := c
  simp only at ht
  subst ht
  simp [CacheKit.Update, h', GoMap.assign]

theorem lookup_Delete [Comparable K] (c : CacheKit K V) (k k' : K) :
    lookupEntries k' (c.Delete k).data.entries =
      if keq k k' then none else lookupEntries k' c.data.entries := by
  cases hd : c.data with
  | none => simp [CacheKit.Delete, GoMap.delete, hd, GoMap.entries, lookupEntries]
  | some t =>
    simp only [CacheKit.Delete, GoMap.delete, hd, GoMap.entries]
    exact lookupEntries_deleteEntries k k' t.entries t.distinct

theorem Get_Delete_same [Comparable K] [Inhabited V] (c : CacheKit K V) (k : K) :
    (c.Delete k).Get k = (default, false) := by
  rw [Get_eq_access]
  apply access_of_lookup_none
  rw [lookup_Delete]
  cases hk : keq k k with
  | true => rfl
  | false =>
    simp only [Bool.false_eq_true, if_false]
    rw [lookupEntries_eq_none_iff]
    rintro ⟨h, -⟩
    rw [hk] at h
    exact absurd h (by simp)

theorem Get_Delete_of_keq_false [Comparable K] [Inhabited V] (c : CacheKit K V) (k k' : K)
    (hne : keq k k' = false) : (c.Delete k).Get k' = c.Get k' := by
  rw [Get_eq_access, Get_eq_access]
  apply access_eq_of_lookup_eq
  rw [lookup_Delete, hne]
  rfl

theorem Get_Delete_other [Comparable K] [Inhabited V] (c : CacheKit K V) (k k' : K)
    (hne : k' ≠ k) : (c.Delete k).Get k' = c.Get k' :=
  Get_Delete_of_keq_false c k k' (keq_eq_false_of_ne k k' (fun e => hne e.symm))

theorem Len_Delete [Comparable K] [Inhabited V] (c : CacheKit K V) (k : K) :
    (c.Delete k).Len + (if c.Has k = true then 1 else 0) = c.Len := by
  have hk := Has_eq_isSome c k
  cases hd : c.data with
  | none =>
    rw [hd] at hk
    simp only [GoMap.entries, lookupEntries, Option.isSome_none] at hk
    simp [CacheKit.Delete, CacheKit.Len, GoMap.delete, GoMap.len, hd, GoMap.entries, hk]
  | some t =>
    rw [hd] at hk
    simp only [GoMap.entries] at hk
    simp only [CacheKit.Delete, CacheKit.Len, GoMap.delete, GoMap.len, hd, GoMap.entries, hk]
    exact length_deleteEntries k t.entries

theorem Delete_of_absent [Comparable K] [Inhabited V] (c : CacheKit K V) (k : K)
    (h : c.Has k = false) : c.Delete k = c := by
  have hk := (Has_eq_false_iff c k).1 h
  obtain ⟨d⟩ := c
  cases d with
  | none => rfl
  | some t =>
    simp only [GoMap.entries] at hk
    obtain ⟨es, hnd⟩ := t
    simp only [CacheKit.Delete, GoMap.delete]
    congr 3
    exact deleteEntries_of_lookup_none k es hk

/-! ## Set followed by Get -/

/-- C1 (as stated, refuted): on the zero value of `CacheKit`, whose map is nil,
`Set(1, 10)` panics, so there is no state after it in which `Get(1)` could
return `(10, true)`; and on a cache with `float64` keys made by `New()`,
`Set(NaN, 1)` completes but the following `Get(NaN)` returns `(0, false)`. -/
theorem Set_then_Get_fails :
    (¬ ∃ c' : CacheKit Nat Int,
      (zeroValue : CacheKit Nat Int).Set 1 10 = some c' ∧ c'.Get 1 = (10, true)) ∧
      (floatCache.Set Float64.nan 1).map (fun c' => c'.Get Float64.nan) =
        some (0, false) := by
  refine ⟨?_, rfl⟩
  rintro ⟨c', h, -⟩
  simp [zeroValue, CacheKit.Set, GoMap.assign] at h

/-- C1 (amended): for every cache state `c` whose map is not nil, every key `k`
with `k == k` and every value `v`, `Set(k, v)` completes and an immediately
following `Get(k)` returns `(v, true)`. -/
theorem Set_then_Get [Comparable K] [Inhabited V] (c : CacheKit K V) (k : K) (v : V)
    (h : c.data.isSome = true) (hk : keq k k = true) :
    ∃ c', c.Set k v = some c' ∧ c'.Get k = (v, true) := by
  obtain ⟨t, ht⟩ := data_eq_some_of_isSome c h
  exact ⟨_, Set_of_table c t k v ht, Get_Set_same c _ k v (Set_of_table c t k v ht) hk⟩

/-- On the sample cache, key 2 is overwritten with 77 and read back. -/
theorem Set_then_Get_witness :
    sample.data.isSome = true ∧ keq (2 : Nat) 2 = true ∧
      ∃ c', sample.Set 2 77 = some c' ∧ c'.Get 2 = (77, true) :=
  ⟨by decide, by decide, Set_then_Get sample 2 77 (by decide) (by decide)⟩

/-! ## Update -/

/-- C2: when `k` is absent, `Update(k, v)` returns the key-does-not-exist error
and the cache is unchanged: `Len()` and `Get(k')` for every key `k'` (also `k`)
give what they gave before the call. -/
theorem Update_absent [Comparable K] [Inhabited V] (c : CacheKit K V) (k : K) (v : V)
    (h : c.Has k = false) :
    ∃ c', c.Update k v = some (c', some (Error.keyDoesNotExist k)) ∧
      c'.Len = c.Len ∧ ∀ k', c'.Get k' = c.Get k' :=
  ⟨c, Update_of_absent c k v h, rfl, fun _ => rfl⟩

/-- On the sample cache, key 7 is absent and updating it is refused. -/
theorem Update_absent_witness :
    sample.Has 7 = false ∧
      ∃ c', sample.Update 7 5 = some (c', some (Error.keyDoesNotExist 7)) ∧
        c'.Len = sample.Len ∧ ∀ k', c'.Get k' = sample.Get k' :=
  ⟨by decide, Update_absent sample 7 5 (by decide)⟩

/-- C3: when `k` is present, `Update(k, v)` returns the nil error, afterwards
`Get(k)` returns `(v, true)`, `Len()` is what it was, and `Get(k')` is unchanged
for every key `k'` other than `k`. -/
theorem Update_present [Comparable K] [Inhabited V] (c : CacheKit K V) (k : K) (v : V)
    (h : c.Has k = true) :
    ∃ c', c.Update k v = some (c', none) ∧ c'.Get k = (v, true) ∧ c'.Len = c.Len ∧
      ∀ k', k' ≠ k → c'.Get k' = c.Get k' := by
  obtain ⟨c', hset, hupd⟩ := Update_of_present c k v h
  refine ⟨c', hupd, Get_Set_same c c' k v hset ((Has_eq_true_iff c k).1 h).1, ?_,
    fun k' hne => Get_Set_other c c' k k' v hset hne⟩
  rw [Len_Set c c' k v hset, if_pos h]

/-- On the sample cache, key 1 is present and is updated to 4. -/
theorem Update_present_witness :
    sample.Has 1 = true ∧
      ∃ c', sample.Update 1 4 = some (c', none) ∧ c'.Get 1 = (4, true) ∧
        c'.Len = sample.Len ∧ ∀ k', k' ≠ 1 → c'.Get k' = sample.Get k' :=
  ⟨by decide, Update_present sample 1 4 (by decide)⟩

/-! ## Delete and Clear -/

/-- C4: after `Delete(k)`, `Get(k)` returns the zero value and `false`, and
`Get(k')` is unchanged for every other key `k'`; `Len()` has dropped by exactly
one when `k` was present; when `k` was absent the call changes nothing (the
state, hence `Len()` and every `Get`, is the same).  `Delete` has no error
result and always completes. -/
theorem Delete_spec [Comparable K] [Inhabited V] (c : CacheKit K V) (k : K) :
    (c.Delete k).Get k = (default, false) ∧
      (∀ k', k' ≠ k → (c.Delete k).Get k' = c.Get k') ∧
      (c.Has k = true → (c.Delete k).Len + 1 = c.Len) ∧
      (c.Has k = false →
        c.Delete k = c ∧ (c.Delete k).Len = c.Len ∧ ∀ k', (c.Delete k).Get k' = c.Get k') := by
  refine ⟨Get_Delete_same c k, fun k' hne => Get_Delete_other c k k' hne, ?_, ?_⟩
  · intro h
    have := Len_Delete c k
    rwa [if_pos h] at this
  · intro h
    have he := Delete_of_absent c k h
    refine ⟨he, ?_, ?_⟩
    · rw [he]
    · intro k'
      rw [he]

/-- C5: after `Clear()`, `Len()` returns 0 and `Get(k)` returns the zero value
and `false` for every key `k`, whether or not it was present before. -/
theorem Clear_spec [Comparable K] [Inhabited V] (c : CacheKit K V) :
    c.Clear.Len = 0 ∧ ∀ k, c.Clear.Get k = (default, false) :=
  ⟨rfl, fun _ => rfl⟩

/-! ## Has and Get -/

/-- C7: `Has(k)` is true exactly when `Get(k)` reports `found = true`; whenever
`k` is absent, `Get(k)` returns the zero value with `false`, in particular in a
new cache and after `Delete(k)`. -/
theorem Has_iff_Get_found [Comparable K] [Inhabited V] (c : CacheKit K V) (k : K) :
    (c.Has k = true ↔ (c.Get k).2 = true) ∧
      (c.Has k = false → c.Get k = (default, false)) ∧
      (New : CacheKit K V).Get k = (default, false) ∧
      (c.Delete k).Get k = (default, false) := by
  refine ⟨Iff.rfl, ?_, rfl, Get_Delete_same c k⟩
  intro h
  rw [Get_eq_access]
  exact access_of_lookup_none c.data k ((Has_eq_false_iff c k).1 h)

/-! ## Set as an upsert -/

/-- C8 (as stated, refuted): on the zero value of `CacheKit`, whose map is nil,
`Set(2, 20)` panics although key 2 is absent: no state follows in which `Len()`
has grown by one. -/
theorem Set_upsert_fails_on_zeroValue :
    (zeroValue : CacheKit Nat Int).Has 2 = false ∧
      ¬ ∃ c' : CacheKit Nat Int,
        (zeroValue : CacheKit Nat Int).Set 2 20 = some c' ∧
          c'.Len = (zeroValue : CacheKit Nat Int).Len + 1 := by
  refine ⟨rfl, ?_⟩
  rintro ⟨c', h, -⟩
  simp [zeroValue, CacheKit.Set, GoMap.assign] at h

/-- C8 (amended): for every cache state `c` whose map is not nil, `Set(k, v)`
completes for every key and value and touches only `k`: `Get(k')` is unchanged
for every key `k'` other than `k`, `Len()` grows by exactly one when `k` was
absent and stays the same when `k` was present. -/
theorem Set_upsert [Comparable K] [Inhabited V] (c : CacheKit K V) (k : K) (v : V)
    (h : c.data.isSome = true) :
    ∃ c', c.Set k v = some c' ∧
      (∀ k', k' ≠ k → c'.Get k' = c.Get k') ∧
      (c.Has k = false → c'.Len = c.Len + 1) ∧
      (c.Has k = true → c'.Len = c.Len) := by
  obtain ⟨t, ht⟩ := data_eq_some_of_isSome c h
  have hset := Set_of_table c t k v ht
  refine ⟨_, hset, fun k' hne => Get_Set_other c _ k k' v hset hne, ?_, ?_⟩
  · intro hk
    rw [Len_Set c _ k v hset, hk]
    simp
  · intro hk
    rw [Len_Set c _ k v hset, if_pos hk]

/-- On the sample cache, the fresh key 4 is inserted. -/
theorem Set_upsert_witness :
    sample.data.isSome = true ∧
      ∃ c', sample.Set 4 40 = some c' ∧
        (∀ k', k' ≠ 4 → c'.Get k' = sample.Get k') ∧
        (sample.Has 4 = false → c'.Len = sample.Len + 1) ∧
        (sample.Has 4 = true → c'.Len = sample.Len) :=
  ⟨by decide, Set_upsert sample 4 40 (by decide)⟩

/-! ## Traversals -/

theorem foldl_append_singleton {α : Type u} {β : Type v} (f : α → β) (l : List α)
    (init : List β) :
    l.foldl (fun acc e => acc ++ [f e]) init = init ++ l.map f := by
  induction l generalizing init with
  | nil => simp
  | cons a l ih => simp [ih]

theorem Keys_eq_entryKeys [Comparable K] (c : CacheKit K V) (r : RangeOrder c.data) :
    c.Keys r = entryKeys r.seq := by
  simp [CacheKit.Keys, entryKeys, foldl_append_singleton Prod.fst]

theorem Values_eq_map [Comparable K] (c : CacheKit K V) (r : RangeOrder c.data) :
    c.Values r = r.seq.map Prod.snd := by
  simp [CacheKit.Values, foldl_append_singleton Prod.snd]

theorem RangeOrder.keys_perm [Comparable K] {m : GoMap K V} (r : RangeOrder m) :
    (entryKeys r.seq).Perm (entryKeys m.entries) :=
  r.perm.map Prod.fst

theorem DistinctKeys.of_perm [Comparable K] {es es' : List (K × V)} (hp : es.Perm es')
    (h : DistinctKeys es') : DistinctKeys es := by
  unfold DistinctKeys at h ⊢
  refine (hp.pairwise_iff ?_).2 h
  intro a b hab
  rw [keq_symm]
  exact hab

theorem RangeOrder.distinct_seq [Comparable K] {m : GoMap K V} (r : RangeOrder m) :
    DistinctKeys r.seq :=
  DistinctKeys.of_perm r.perm m.distinct_entries

theorem lookupEntries_eq_some_iff [Comparable K] (k : K) (v : V) (es : List (K × V))
    (hd : DistinctKeys es) :
    lookupEntries k es = some v ↔ keq k k = true ∧ (k, v) ∈ es := by
  induction es with
  | nil => simp [lookupEntries]
  | cons e₀ es ih =>
    obtain ⟨k₀, v₀⟩ := e₀
    have hd' := List.pairwise_cons.1 hd
    cases h : keq k₀ k with
    | true =>
      have e := Comparable.eq_imp k₀ k h
      subst e
      have hno : ∀ w, (k₀, w) ∉ es := by
        intro w hw
        have := hd'.1 (k₀, w) hw
        simp only at this
        rw [h] at this
        exact absurd this (by simp)
      simp only [lookupEntries, h, if_true, Option.some.injEq, List.mem_cons, Prod.mk.injEq,
        true_and]
      constructor
      · intro e
        exact Or.inl e.symm
      · rintro (e | e)
        · exact e.symm
        · exact absurd e (hno v)
    | false =>
      simp only [lookupEntries, h, Bool.false_eq_true, if_false, ih hd'.2, List.mem_cons,
        Prod.mk.injEq]
      constructor
      · rintro ⟨h₁, h₂⟩
        exact ⟨h₁, Or.inr h₂⟩
      · rintro ⟨h₁, ⟨e₁, -⟩ | h₂⟩
        · rw [← e₁, h₁] at h
          exact absurd h (by simp)
        · exact ⟨h₁, h₂⟩

theorem lookupEntries_perm [Comparable K] (k : K) (es es' : List (K × V))
    (hp : es.Perm es') (hd : DistinctKeys es') :
    lookupEntries k es = lookupEntries k es' := by
  have hd₀ : DistinctKeys es := DistinctKeys.of_perm hp hd
  apply Option.ext
  intro v
  rw [Option.mem_def, Option.mem_def, lookupEntries_eq_some_iff k v es hd₀,
    lookupEntries_eq_some_iff k v es' hd, hp.mem_iff]

theorem distinct_assignAll [Comparable K] (l es : List (K × V)) (h : DistinctKeys es) :
    DistinctKeys (assignAll l es) := by
  induction l generalizing es with
  | nil => exact h
  | cons e l ih => exact ih _ (distinct_assignEntries e.1 e.2 es h)

theorem assignEntries_of_forall [Comparable K] (k : K) (v : V) (es : List (K × V))
    (h : ∀ e ∈ es, keq e.1 k = false) : assignEntries k v es = es ++ [(k, v)] := by
  induction es with
  | nil => rfl
  | cons e₀ es ih =>
    obtain ⟨k₀, v₀⟩ := e₀
    have h₀ : keq k₀ k = false := h (k₀, v₀) (List.mem_cons_self _ _)
    simp only [assignEntries, h₀, Bool.false_eq_true, if_false, List.cons_append]
    rw [ih (fun e he => h e (List.mem_cons_of_mem _ he))]

theorem assignAll_of_distinct [Comparable K] (l es : List (K × V))
    (h : DistinctKeys (es ++ l)) : assignAll l es = es ++ l := by
  induction l generalizing es with
  | nil => simp [assignAll]
  | cons e l ih =>
    have hp := List.pairwise_append.1 h
    have hstep : assignAll (e :: l) es = assignAll l (assignEntries e.1 e.2 es) := rfl
    have hfresh : ∀ e' ∈ es, keq e'.1 e.1 = false :=
      fun e' he' => hp.2.2 e' he' e (List.mem_cons_self _ _)
    rw [hstep, assignEntries_of_forall e.1 e.2 es hfresh]
    have h' : DistinctKeys ((es ++ [(e.1, e.2)]) ++ l) := by
      simpa using h
    rw [ih _ h']
    simp

theorem foldl_assign_eq [Comparable K] (l : List (K × V)) (t : HTable K V) :
    l.foldl (fun items e => items.bind (fun m => GoMap.assign m e.1 e.2)) (some (some t)) =
      some (some ⟨assignAll l t.entries, distinct_assignAll l t.entries t.distinct⟩) := by
  induction l generalizing t with
  | nil => rfl
  | cons e l ih =>
    have hstep : (e :: l).foldl (fun items e => items.bind (fun m => GoMap.assign m e.1 e.2))
        (some (some t)) =
        l.foldl (fun items e => items.bind (fun m => GoMap.assign m e.1 e.2))
          (some (some ⟨assignEntries e.1 e.2 t.entries,
            distinct_assignEntries e.1 e.2 t.entries t.distinct⟩)) := rfl
    rw [hstep, ih]
    rfl

theorem Items_eq [Comparable K] (c : CacheKit K V) (r : RangeOrder c.data) :
    c.Items r =
      some (some ⟨assignAll r.seq [], distinct_assignAll r.seq [] List.Pairwise.nil⟩) :=
  foldl_assign_eq r.seq ⟨[], List.Pairwise.nil⟩

theorem assignAll_seq [Comparable K] (c : CacheKit K V) (r : RangeOrder c.data) :
    assignAll r.seq [] = r.seq := by
  have h := assignAll_of_distinct r.seq [] (by simpa using r.distinct_seq)
  simpa using h

/-! ## Snapshots -/

/-- C9: whatever orders the two traversals take, `Items()` completes and the map
it returns has exactly the keys that `Keys()` returns, has `Len()` entries, and
gives under every key of its own what `Get` gives on the cache (so each of its
keys `k` is mapped to the value that `Get(k)` returns). -/
theorem Items_spec [Comparable K] [Inhabited V] (c : CacheKit K V)
    (r r' : RangeOrder c.data) :
    ∃ items : GoMap K V, c.Items r = some items ∧
      (∀ k, k ∈ entryKeys items.entries ↔ k ∈ c.Keys r') ∧
      items.len = c.Len ∧
      (∀ k, k ∈ entryKeys items.entries → items.access k = c.Get k) := by
  have he : GoMap.entries (some ⟨assignAll r.seq [],
      distinct_assignAll r.seq [] List.Pairwise.nil⟩ : GoMap K V) = r.seq :=
    assignAll_seq c r
  refine ⟨_, Items_eq c r, ?_, ?_, ?_⟩
  · intro k
    rw [he, Keys_eq_entryKeys, r.keys_perm.mem_iff, r'.keys_perm.mem_iff]
  · show (GoMap.entries _).length = _
    rw [he, r.perm.length_eq]
    rfl
  · intro k _
    rw [Get_eq_access]
    apply access_eq_of_lookup_eq
    rw [he]
    exact lookupEntries_perm k r.seq c.data.entries r.perm c.data.distinct_entries

/-! ## Caches whose keys are all equal to themselves -/

theorem selfEqualKeys_iff [Comparable K] (c : CacheKit K V) :
    c.selfEqualKeys = true ↔ ∀ e ∈ c.data.entries, keq e.1 e.1 = true := by
  simp [CacheKit.selfEqualKeys, List.all_eq_true]

theorem keq_self_of_mem_keys [Comparable K] (c : CacheKit K V) (h : c.selfEqualKeys = true)
    (k : K) (hk : k ∈ entryKeys c.data.entries) : keq k k = true := by
  obtain ⟨e, he, rfl⟩ := List.mem_map.1 hk
  exact (selfEqualKeys_iff c).1 h e he

theorem nodup_entryKeys [Comparable K] (c : CacheKit K V) (h : c.selfEqualKeys = true) :
    (entryKeys c.data.entries).Nodup := by
  unfold entryKeys List.Nodup
  rw [List.pairwise_map]
  refine List.Pairwise.imp_of_mem ?_ c.data.distinct_entries
  intro a b ha _ hab e
  have hs := (selfEqualKeys_iff c).1 h a ha
  rw [← e, hs] at hab
  exact absurd hab (by simp)

theorem Has_iff_mem_keys [Comparable K] [Inhabited V] (c : CacheKit K V)
    (h : c.selfEqualKeys = true) (k : K) :
    c.Has k = true ↔ k ∈ entryKeys c.data.entries := by
  rw [Has_eq_true_iff]
  exact ⟨fun hk => hk.2, fun hk => ⟨keq_self_of_mem_keys c h k hk, hk⟩⟩

theorem Has_set_eq [Comparable K] [DecidableEq K] [Inhabited V] (c : CacheKit K V)
    (h : c.selfEqualKeys = true) :
    {k | c.Has k = true} = ((entryKeys c.data.entries).toFinset : Set K) := by
  ext k
  simp [Has_iff_mem_keys c h]

theorem Has_set_finite [Comparable K] [Inhabited V] (c : CacheKit K V) :
    {k | c.Has k = true}.Finite := by
  classical
  refine Set.Finite.subset (Finset.finite_toSet (entryKeys c.data.entries).toFinset) ?_
  intro k hk
  simpa using ((Has_eq_true_iff c k).1 hk).2

theorem Len_eq_ncard [Comparable K] [Inhabited V] (c : CacheKit K V)
    (h : c.selfEqualKeys = true) : c.Len = Set.ncard {k | c.Has k = true} := by
  classical
  rw [Has_set_eq c h, Set.ncard_coe_Finset, List.toFinset_card_of_nodup (nodup_entryKeys c h)]
  simp [CacheKit.Len, GoMap.len, entryKeys]

theorem selfEqualKeys_Set [Comparable K] (c c' : CacheKit K V) (k : K) (v : V)
    (h : c.Set k v = some c') (hs : c.selfEqualKeys = true) (hk : keq k k = true) :
    c'.selfEqualKeys = true := by
  obtain ⟨t, ht⟩ := data_eq_some_of_isSome c (Set_isSome c c' k v h).1
  rw [Set_of_table c t k v ht] at h
  cases h
  rw [selfEqualKeys_iff] at hs ⊢
  intro e he
  rcases mem_assignEntries k v t.entries e he with h₁ | h₁
  · rw [h₁]
    exact hk
  · apply hs
    rw [ht]
    exact h₁

theorem selfEqualKeys_Delete [Comparable K] (c : CacheKit K V) (k : K)
    (hs : c.selfEqualKeys = true) : (c.Delete k).selfEqualKeys = true := by
  rw [selfEqualKeys_iff] at hs ⊢
  intro e he
  apply hs
  cases hd : c.data with
  | none => simp [CacheKit.Delete, GoMap.delete, hd, GoMap.entries] at he
  | some t =>
    simp only [CacheKit.Delete, GoMap.delete, hd, GoMap.entries] at he
    exact (deleteEntries_sublist k t.entries).subset he

/-! ## Keys -/

/-- C10 (as stated, refuted): in a cache with `float64` keys made by `New()`,
after `Set(NaN, 1)` and `Set(NaN, 2)` the sequence `Keys()` is `[NaN, NaN]`: it
holds the same key twice, and it holds a key for which `Has` is false. -/
theorem Keys_fails_on_NaN :
    ∃ c : CacheKit Float64 Int,
      runOps floatCache [Op.set Float64.nan 1, Op.set Float64.nan 2] = some c ∧
        c.Keys (RangeOrder.inOrder c.data) = [Float64.nan, Float64.nan] ∧
        ¬ (c.Keys (RangeOrder.inOrder c.data)).Nodup ∧
        c.Has Float64.nan = false :=
  ⟨_, rfl, rfl, by decide, rfl⟩

/-- C10 (amended): for every cache state `c` all of whose keys are `==` to
themselves, and whatever order the traversal takes, `Keys()` returns a sequence
of length `Len()` without duplicates in which a key `k` occurs exactly when
`Has(k)` is true. -/
theorem Keys_spec [Comparable K] [Inhabited V] (c : CacheKit K V) (r : RangeOrder c.data)
    (h : c.selfEqualKeys = true) :
    (c.Keys r).length = c.Len ∧ (c.Keys r).Nodup ∧ ∀ k, k ∈ c.Keys r ↔ c.Has k = true := by
  rw [Keys_eq_entryKeys]
  refine ⟨?_, r.keys_perm.nodup_iff.2 (nodup_entryKeys c h), ?_⟩
  · rw [r.keys_perm.length_eq]
    simp [CacheKit.Len, GoMap.len, entryKeys]
  · intro k
    rw [r.keys_perm.mem_iff, Has_iff_mem_keys c h]

/-- On the sample cache, traversed in reverse order. -/
theorem Keys_spec_witness :
    sample.selfEqualKeys = true ∧
      (sample.Keys (RangeOrder.reversed sample.data)).length = sample.Len ∧
      (sample.Keys (RangeOrder.reversed sample.data)).Nodup ∧
      ∀ k, k ∈ sample.Keys (RangeOrder.reversed sample.data) ↔ sample.Has k = true :=
  ⟨by decide, Keys_spec sample (RangeOrder.reversed sample.data) (by decide)⟩

/-! ## Values -/

theorem Get_eq_found_iff [Comparable K] [Inhabited V] (c : CacheKit K V)
    (h : c.selfEqualKeys = true) (k : K) (v : V) :
    c.Get k = (v, true) ↔ (k, v) ∈ c.data.entries := by
  have hl : c.Get k = (v, true) ↔ lookupEntries k c.data.entries = some v := by
    rw [Get_eq_access]
    unfold GoMap.access
    cases lookupEntries k c.data.entries with
    | none => simp
    | some w => simp
  rw [hl, lookupEntries_eq_some_iff k v c.data.entries c.data.distinct_entries]
  constructor
  · exact fun hk => hk.2
  · intro hk
    exact ⟨keq_self_of_mem_keys c h k (List.mem_map_of_mem Prod.fst hk), hk⟩

theorem found_set_eq [Comparable K] [DecidableEq K] [DecidableEq V] [Inhabited V]
    (c : CacheKit K V) (h : c.selfEqualKeys = true) (v : V) :
    {k | c.Get k = (v, true)} =
      ((entryKeys (c.data.entries.filter (fun e => e.2 == v))).toFinset : Set K) := by
  ext k
  simp only [Set.mem_setOf_eq, Get_eq_found_iff c h, entryKeys, List.coe_toFinset,
    List.mem_map, List.mem_filter, beq_iff_eq]
  constructor
  · intro hk
    exact ⟨(k, v), ⟨hk, rfl⟩, rfl⟩
  · rintro ⟨⟨k', v'⟩, ⟨hmem, hv⟩, hk⟩
    simp only at hv hk
    subst hv
    subst hk
    exact hmem

theorem count_Values [Comparable K] [DecidableEq V] [Inhabited V] (c : CacheKit K V)
    (r : RangeOrder c.data) (h : c.selfEqualKeys = true) (v : V) :
    (c.Values r).count v = Set.ncard {k | c.Get k = (v, true)} := by
  classical
  have hnd : (entryKeys (c.data.entries.filter (fun e => e.2 == v))).Nodup :=
    List.Nodup.sublist ((List.filter_sublist c.data.entries).map Prod.fst)
      (nodup_entryKeys c h)
  rw [found_set_eq c h, Set.ncard_coe_Finset, List.toFinset_card_of_nodup hnd, Values_eq_map,
    List.count_eq_countP, List.countP_map, r.perm.countP_eq, List.countP_eq_length_filter]
  simp only [entryKeys, List.length_map]
  rfl

/-- C11 (as stated, refuted): in a cache with `float64` keys made by `New()`,
after `Set(NaN, 1)` the sequence `Values()` is `[1]`, in which 1 occurs once,
but there is no key `k` with `Get(k) = (1, true)`. -/
theorem Values_fails_on_NaN :
    ∃ c : CacheKit Float64 Int,
      runOps floatCache [Op.set Float64.nan 1] = some c ∧
        c.Values (RangeOrder.inOrder c.data) = [1] ∧
        (c.Values (RangeOrder.inOrder c.data)).count 1 = 1 ∧
        (∀ k, c.Get k ≠ (1, true)) ∧
        Set.ncard {k | c.Get k = (1, true)} = 0 := by
  have hget : ∀ k : Float64,
      (CacheKit.mk (some ⟨[(Float64.nan, (1 : Int))],
        distinct_assignEntries Float64.nan 1 [] List.Pairwise.nil⟩)).Get k ≠ (1, true) := by
    intro k
    cases k <;> simp [CacheKit.Get, GoMap.access, GoMap.entries, lookupEntries, keq,
      Comparable.eq, Float64.eq]
  refine ⟨_, rfl, rfl, by decide, hget, ?_⟩
  have hempty : {k : Float64 | (CacheKit.mk (some ⟨[(Float64.nan, (1 : Int))],
      distinct_assignEntries Float64.nan 1 [] List.Pairwise.nil⟩)).Get k = (1, true)} = ∅ := by
    ext k
    simp only [Set.mem_setOf_eq, Set.mem_empty_iff_false, iff_false]
    exact hget k
  exact hempty ▸ Set.ncard_empty Float64

/-- C11 (amended): for every cache state `c` all of whose keys are `==` to
themselves, and whatever order the traversal takes, `Values()` returns a
sequence of length `Len()` in which every value `v` occurs as many times as
there are keys `k` with `Get(k) = (v, true)`.  (The length is `Len()` in every
state.) -/
theorem Values_spec [Comparable K] [DecidableEq V] [Inhabited V] (c : CacheKit K V)
    (r : RangeOrder c.data) (h : c.selfEqualKeys = true) :
    (c.Values r).length = c.Len ∧
      ∀ v, (c.Values r).count v = Set.ncard {k | c.Get k = (v, true)} := by
  refine ⟨?_, count_Values c r h⟩
  rw [Values_eq_map, List.length_map, r.perm.length_eq]
  rfl

/-- On the sample cache, traversed in reverse order. -/
theorem Values_spec_witness :
    sample.selfEqualKeys = true ∧
      (sample.Values (RangeOrder.reversed sample.data)).length = sample.Len ∧
      ∀ v, (sample.Values (RangeOrder.reversed sample.data)).count v =
        Set.ncard {k | sample.Get k = (v, true)} :=
  ⟨by decide, Values_spec sample (RangeOrder.reversed sample.data) (by decide)⟩

/-! ## Sequences of calls from `New` -/

theorem Delete_isSome [Comparable K] (c : CacheKit K V) (k : K) :
    (c.Delete k).data.isSome = c.data.isSome := by
  obtain ⟨d⟩ := c
  cases d <;> rfl

theorem Op.apply_isSome [Comparable K] [Inhabited V] (c : CacheKit K V) (op : Op K V)
    (h : c.data.isSome = true) :
    ∃ c', op.apply c = some c' ∧ c'.data.isSome = true := by
  obtain ⟨t, ht⟩ := data_eq_some_of_isSome c h
  cases op with
  | set key value => exact ⟨_, Set_of_table c t key value ht, rfl⟩
  | update key value =>
    cases hk : c.Has key with
    | false =>
      refine ⟨c, ?_, h⟩
      simp [Op.apply, Update_of_absent c key value hk]
    | true =>
      obtain ⟨c', hset, hupd⟩ := Update_of_present c key value hk
      exact ⟨c', by simp [Op.apply, hupd], (Set_isSome c c' key value hset).2⟩
  | delete key =>
    refine ⟨c.Delete key, rfl, ?_⟩
    rw [Delete_isSome, h]
  | clear => exact ⟨c.Clear, rfl, rfl⟩

theorem runOps_isSome [Comparable K] [Inhabited V] (ops : List (Op K V)) (c : CacheKit K V)
    (h : c.data.isSome = true) :
    ∃ c', runOps c ops = some c' ∧ c'.data.isSome = true := by
  induction ops generalizing c with
  | nil => exact ⟨c, rfl, h⟩
  | cons op ops ih =>
    obtain ⟨c₁, h₁, hs₁⟩ := Op.apply_isSome c op h
    obtain ⟨c₂, h₂, hs₂⟩ := ih c₁ hs₁
    exact ⟨c₂, by simp [runOps, h₁, h₂], hs₂⟩

theorem Op.apply_selfEqual [Comparable K] [Inhabited V] (c c' : CacheKit K V) (op : Op K V)
    (h : op.apply c = some c') (hs : c.selfEqualKeys = true)
    (hop : op.selfEqualKey = true) : c'.selfEqualKeys = true := by
  cases op with
  | set key value => exact selfEqualKeys_Set c c' key value h hs hop
  | update key value =>
    simp only [Op.apply] at h
    cases hk : c.Has key with
    | false =>
      rw [Update_of_absent c key value hk] at h
      cases h
      exact hs
    | true =>
      obtain ⟨c₀, hset, hupd⟩ := Update_of_present c key value hk
      rw [hupd] at h
      cases h
      exact selfEqualKeys_Set c c₀ key value hset hs ((Has_eq_true_iff c key).1 hk).1
  | delete key =>
    cases h
    exact selfEqualKeys_Delete c key hs
  | clear =>
    cases h
    rfl

theorem runOps_selfEqual [Comparable K] [Inhabited V] (ops : List (Op K V))
    (c c' : CacheKit K V) (h : runOps c ops = some c') (hs : c.selfEqualKeys = true)
    (hops : ∀ op ∈ ops, op.selfEqualKey = true) : c'.selfEqualKeys = true := by
  induction ops generalizing c with
  | nil =>
    cases h
    exact hs
  | cons op ops ih =>
    simp only [runOps] at h
    cases h₁ : op.apply c with
    | none => simp [h₁] at h
    | some c₁ =>
      rw [h₁] at h
      exact ih c₁ h
        (Op.apply_selfEqual c c₁ op h₁ hs (hops op (List.mem_cons_self _ _)))
        (fun op' hop' => hops op' (List.mem_cons_of_mem _ hop'))

/-- C6 (as stated, refuted): in a cache with `float64` keys made by `New()`,
after `Set(NaN, 7)` `Len()` is 1 but `Has(k)` is false for every key `k`, so the
number of keys for which `Has` is true is 0. -/
theorem Len_fails_on_NaN :
    ∃ c : CacheKit Float64 Int,
      runOps floatCache [Op.set Float64.nan 7] = some c ∧ c.Len = 1 ∧
        (∀ k, c.Has k = false) ∧ Set.ncard {k | c.Has k = true} = 0 := by
  have hhas : ∀ k : Float64,
      (CacheKit.mk (some ⟨[(Float64.nan, (7 : Int))],
        distinct_assignEntries Float64.nan 7 [] List.Pairwise.nil⟩)).Has k = false := by
    intro k
    cases k <;> simp [CacheKit.Has, GoMap.access, GoMap.entries, lookupEntries, keq,
      Comparable.eq, Float64.eq]
  refine ⟨_, rfl, rfl, hhas, ?_⟩
  have hempty : {k : Float64 | (CacheKit.mk (some ⟨[(Float64.nan, (7 : Int))],
      distinct_assignEntries Float64.nan 7 [] List.Pairwise.nil⟩)).Has k = true} = ∅ := by
    ext k
    simp [hhas k]
  exact hempty ▸ Set.ncard_empty Float64

/-- C6 (amended): every finite sequence of `Set`, `Update`, `Delete` and `Clear`
calls made on `New()` in which every key given to `Set` is `==` to itself
completes, and in the state it reaches the keys `k` for which `Has(k)` is true
are finitely many and `Len()` is their number. -/
theorem Len_eq_number_of_keys [Comparable K] [Inhabited V] (ops : List (Op K V))
    (h : ∀ op ∈ ops, op.selfEqualKey = true) :
    ∃ c : CacheKit K V, runOps New ops = some c ∧
      {k | c.Has k = true}.Finite ∧ c.Len = Set.ncard {k | c.Has k = true} := by
  obtain ⟨c, hc, -⟩ := runOps_isSome ops (New : CacheKit K V) rfl
  exact ⟨c, hc, Has_set_finite c,
    Len_eq_ncard c (runOps_selfEqual ops New c hc rfl h)⟩

/-- On the calls of the tests with numeric keys. -/
theorem Len_eq_number_of_keys_witness :
    (∀ op ∈ [Op.set (1 : Nat) (10 : Int), Op.set 2 20, Op.delete 1, Op.update 2 5],
        op.selfEqualKey = true) ∧
      ∃ c : CacheKit Nat Int,
        runOps New [Op.set (1 : Nat) (10 : Int), Op.set 2 20, Op.delete 1, Op.update 2 5] =
          some c ∧
        {k | c.Has k = true}.Finite ∧ c.Len = Set.ncard {k | c.Has k = true} :=
  ⟨by simp [Op.selfEqualKey, keq, Comparable.eq],
    Len_eq_number_of_keys _ (by simp [Op.selfEqualKey, keq, Comparable.eq])⟩

/-! ## The new cache -/

theorem RangeOrder.seq_eq_nil_of_entries [Comparable K] {m : GoMap K V} (r : RangeOrder m)
    (h : m.entries = []) : r.seq = [] := by
  have hp := r.perm
  rw [h] at hp
  exact List.Perm.eq_nil hp

/-- C12: a cache made by `New()` is empty: `Len()` is 0, `Has(k)` is false and
`Get(k)` returns the zero value with `false` for every key `k`, `Keys()` and
`Values()` are empty sequences, and `Items()` returns a map without entries. -/
theorem New_empty [Comparable K] [Inhabited V] (k : K)
    (r : RangeOrder (New : CacheKit K V).data) :
    (New : CacheKit K V).Len = 0 ∧
      (New : CacheKit K V).Has k = false ∧
      (New : CacheKit K V).Get k = (default, false) ∧
      (New : CacheKit K V).Keys r = [] ∧
      (New : CacheKit K V).Values r = [] ∧
      ∃ items : GoMap K V, (New : CacheKit K V).Items r = some items ∧
        items.entries = [] ∧ items.len = 0 := by
  have hr : r.seq = [] := r.seq_eq_nil_of_entries rfl
  refine ⟨rfl, rfl, rfl, ?_, ?_, ?_⟩
  · simp [CacheKit.Keys, hr]
  · simp [CacheKit.Values, hr]
  · refine ⟨GoMap.make, ?_, rfl, rfl⟩
    simp [CacheKit.Items, hr]

/-! ## Read-only calls leave the cache as it is -/

/-- C13: a call of `Get`, `Has`, `Len`, `Keys`, `Values` or `Items`, with any
argument and any traversal order, leaves the cache state as it was: the state
after the call is the state before it, so every later `Get`, `Has` and `Len`
gives what it would have given without the call. -/
theorem read_only_calls [Comparable K] [Inhabited V] (c : CacheKit K V)
    (r : RangeOrder c.data) (q : Query K) :
    (q.call c r).1 = c ∧
      (∀ k, (q.call c r).1.Get k = c.Get k) ∧
      (∀ k, (q.call c r).1.Has k = c.Has k) ∧
      (q.call c r).1.Len = c.Len := by
  have h : (q.call c r).1 = c := by
    cases q <;> rfl
  rw [h]
  exact ⟨rfl, fun _ => rfl, fun _ => rfl, rfl⟩

/-! ## No failure but that of Update on a missing key -/

theorem Update_total [Comparable K] [Inhabited V] (c : CacheKit K V) (k : K) (v : V) :
    ∃ c' e, c.Update k v = some (c', e) ∧ (e.isSome = true ↔ c.Has k = false) := by
  cases hk : c.Has k with
  | false => exact ⟨c, _, Update_of_absent c k v hk, by simp⟩
  | true =>
    obtain ⟨c', -, hupd⟩ := Update_of_present c k v hk
    exact ⟨c', none, hupd, by simp⟩

theorem Query.call_fst [Comparable K] [Inhabited V] (c : CacheKit K V)
    (r : RangeOrder c.data) (q : Query K) : (q.call c r).1 = c := by
  cases q <;> rfl

theorem Call.step_isSome [Comparable K] [Inhabited V] (c : CacheKit K V) (call : Call K V)
    (h : c.data.isSome = true) :
    ∃ c', call.apply c = some c' ∧ c'.data.isSome = true := by
  cases call with
  | mutate op => exact Op.apply_isSome c op h
  | query q =>
    refine ⟨c, ?_, h⟩
    simp only [Call.apply, Query.call_fst]

theorem runCalls_isSome [Comparable K] [Inhabited V] (calls : List (Call K V))
    (c : CacheKit K V) (h : c.data.isSome = true) :
    ∃ c', runCalls c calls = some c' ∧ c'.data.isSome = true := by
  induction calls generalizing c with
  | nil => exact ⟨c, rfl, h⟩
  | cons call calls ih =>
    obtain ⟨c₁, h₁, hs₁⟩ := Call.step_isSome c call h
    obtain ⟨c₂, h₂, hs₂⟩ := ih c₁ hs₁
    exact ⟨c₂, by simp [runCalls, h₁, h₂], hs₂⟩

/-- C14: every finite sequence of calls (mutating or read-only) made on `New()`
completes, and in the state it reaches the map is not nil, so that `Set`
completes for every key and value, `Update` completes and returns an error
exactly when its key is absent, `Items` completes for every traversal order,
every read-only call completes with an answer, and `Delete` and `Clear`
complete.  (`Get`, `Has`, `Len`, `Keys`, `Values`, `Delete` and `Clear` have no
failing statement and are total functions.) -/
theorem only_Update_fails [Comparable K] [Inhabited V] (calls : List (Call K V)) :
    ∃ c : CacheKit K V, runCalls New calls = some c ∧ c.data.isSome = true ∧
      (∀ k v, ∃ c', c.Set k v = some c') ∧
      (∀ k v, ∃ c' e, c.Update k v = some (c', e) ∧ (e.isSome = true ↔ c.Has k = false)) ∧
      (∀ r : RangeOrder c.data, ∃ items, c.Items r = some items) ∧
      (∀ (r : RangeOrder c.data) (q : Query K), ∃ a, q.call c r = (c, a)) ∧
      (∀ k, ∃ c', Op.apply c (Op.delete k) = some c') ∧
      (∃ c', Op.apply c (Op.clear : Op K V) = some c') := by
  obtain ⟨c, hc, hs⟩ := runCalls_isSome calls (New : CacheKit K V) rfl
  obtain ⟨t, ht⟩ := data_eq_some_of_isSome c hs
  refine ⟨c, hc, hs, fun k v => ⟨_, Set_of_table c t k v ht⟩, Update_total c, ?_, ?_, ?_, ?_⟩
  · exact fun r => ⟨_, Items_eq c r⟩
  · intro r q
    cases q <;> exact ⟨_, rfl⟩
  · exact fun k => ⟨_, rfl⟩
  · exact ⟨_, rfl⟩

/-! ## Update and Set on a present key -/

/-- C17: when `k` is present, `Update(k, v)` returns no error and leaves the
cache in the very state `Set(k, v)` leaves it in: the same `Len()` and the same
`Get` result for every key. -/
theorem Update_eq_Set_of_present [Comparable K] [Inhabited V] (c : CacheKit K V) (k : K)
    (v : V) (h : c.Has k = true) :
    ∃ cs cu, c.Set k v = some cs ∧ c.Update k v = some (cu, none) ∧
      cu = cs ∧ cu.Len = cs.Len ∧ ∀ k', cu.Get k' = cs.Get k' := by
  obtain ⟨c', hset, hupd⟩ := Update_of_present c k v h
  exact ⟨c', c', hset, hupd, rfl, rfl, fun _ => rfl⟩

/-- On the sample cache, key 3 is present; updating and setting it to 33 agree. -/
theorem Update_eq_Set_of_present_witness :
    sample.Has 3 = true ∧
      ∃ cs cu, sample.Set 3 33 = some cs ∧ sample.Update 3 33 = some (cu, none) ∧
        cu = cs ∧ cu.Len = cs.Len ∧ ∀ k', cu.Get k' = cs.Get k' :=
  ⟨by decide, Update_eq_Set_of_present sample 3 33 (by decide)⟩

/-! ## Mutations on distinct keys -/

theorem Get_of_not_selfEqual [Comparable K] [Inhabited V] (c : CacheKit K V) (k : K)
    (hk : keq k k = false) : c.Get k = (default, false) := by
  rw [Get_eq_access]
  apply access_of_lookup_none
  rw [lookupEntries_eq_none_iff]
  rintro ⟨h, -⟩
  rw [hk] at h
  exact absurd h (by simp)

theorem KeyOp.apply_effect [Comparable K] [Inhabited V] (c c' : CacheKit K V) (k : K)
    (o : KeyOp V) (e : Option (Error K)) (h : o.apply c k = some (c', e)) :
    c'.Get k = o.after (keq k k) (c.Get k) ∧
      (∀ k', keq k k' = false → c'.Get k' = c.Get k') ∧
      e = KeyOp.err k o (c.Has k) ∧ c'.data.isSome = c.data.isSome := by
  cases o with
  | set v =>
    simp only [KeyOp.apply, Option.map_eq_some', Prod.mk.injEq] at h
    obtain ⟨c₀, hset, hc, he⟩ := h
    subst hc
    subst he
    have hs := Set_isSome c c₀ k v hset
    refine ⟨?_, fun k' hne => Get_Set_of_keq_false c c₀ k k' v hset hne, ?_, ?_⟩
    · cases hk : keq k k with
      | true => simpa [KeyOp.after] using Get_Set_same c c₀ k v hset hk
      | false => simpa [KeyOp.after] using Get_of_not_selfEqual c₀ k hk
    · cases c.Has k <;> rfl
    · rw [hs.1, hs.2]
  | update v =>
    simp only [KeyOp.apply] at h
    cases hk : c.Has k with
    | false =>
      rw [Update_of_absent c k v hk] at h
      cases h
      have hg : (c.Get k).2 = false := hk
      refine ⟨?_, fun _ _ => rfl, rfl, rfl⟩
      simp [KeyOp.after, hg]
    | true =>
      obtain ⟨c₀, hset, hupd⟩ := Update_of_present c k v hk
      rw [hupd] at h
      cases h
      have hg : (c.Get k).2 = true := hk
      have hs := Set_isSome c c' k v hset
      refine ⟨?_, fun k' hne => Get_Set_of_keq_false c c' k k' v hset hne, rfl, ?_⟩
      · rw [Get_Set_same c c' k v hset ((Has_eq_true_iff c k).1 hk).1]
        simp [KeyOp.after, hg]
      · rw [hs.1, hs.2]
  | delete =>
    simp only [KeyOp.apply, Option.some.injEq, Prod.mk.injEq] at h
    obtain ⟨hc, he⟩ := h
    subst hc
    subst he
    refine ⟨Get_Delete_same c k, fun k' hne => Get_Delete_of_keq_false c k k' hne, ?_,
      Delete_isSome c k⟩
    cases c.Has k <;> rfl

theorem KeyOp.apply_progress [Comparable K] [Inhabited V] (c : CacheKit K V) (k : K)
    (o : KeyOp V) (h : c.data.isSome = true ∨ o.isSet = false) :
    ∃ c' e, o.apply c k = some (c', e) := by
  cases o with
  | set v =>
    have hs : c.data.isSome = true := by
      rcases h with h | h
      · exact h
      · simp [KeyOp.isSet] at h
    obtain ⟨t, ht⟩ := data_eq_some_of_isSome c hs
    refine ⟨{ data := some ⟨assignEntries k v t.entries,
      distinct_assignEntries k v t.entries t.distinct⟩ }, none, ?_⟩
    simp [KeyOp.apply, Set_of_table c t k v ht]
  | update v =>
    obtain ⟨c', e, hupd, -⟩ := Update_total c k v
    exact ⟨c', e, hupd⟩
  | delete => exact ⟨_, _, rfl⟩

theorem KeyOp.apply_none [Comparable K] [Inhabited V] (c : CacheKit K V) (k : K)
    (o : KeyOp V) (hc : c.data.isSome = false) (ho : o.isSet = true) :
    o.apply c k = none := by
  obtain ⟨d⟩ := c
  cases d with
  | some t => simp at hc
  | none =>
    cases o with
    | set v => rfl
    | update v => simp [KeyOp.isSet] at ho
    | delete => simp [KeyOp.isSet] at ho

theorem KeyOp.apply_len [Comparable K] [Inhabited V] (c c' : CacheKit K V) (k : K)
    (o : KeyOp V) (e : Option (Error K)) (h : o.apply c k = some (c', e)) :
    (c'.Len : Int) = c.Len + o.delta (c.Has k) := by
  cases o with
  | set v =>
    simp only [KeyOp.apply, Option.map_eq_some', Prod.mk.injEq] at h
    obtain ⟨c₀, hset, hc, -⟩ := h
    subst hc
    rw [Len_Set c c₀ k v hset]
    cases c.Has k <;> simp [KeyOp.delta]
  | update v =>
    simp only [KeyOp.apply] at h
    cases hk : c.Has k with
    | false =>
      rw [Update_of_absent c k v hk] at h
      cases h
      simp [KeyOp.delta]
    | true =>
      obtain ⟨c₀, hset, hupd⟩ := Update_of_present c k v hk
      rw [hupd] at h
      cases h
      rw [Len_Set c c' k v hset, if_pos hk]
      simp [KeyOp.delta]
  | delete =>
    simp only [KeyOp.apply, Option.some.injEq, Prod.mk.injEq] at h
    obtain ⟨hc, -⟩ := h
    subst hc
    have hl := Len_Delete c k
    cases hk : c.Has k with
    | false =>
      rw [hk] at hl
      simp only [Bool.false_eq_true, if_false, Nat.add_zero] at hl
      simp [KeyOp.delta, hl]
    | true =>
      rw [hk] at hl
      simp only [if_true] at hl
      simp only [KeyOp.delta]
      omega

theorem runPair_eq [Comparable K] [Inhabited V] (c c₁ c₂ : CacheKit K V) (k₁ k₂ : K)
    (o₁ o₂ : KeyOp V) (e₁ e₂ : Option (Error K)) (h₁ : o₁.apply c k₁ = some (c₁, e₁))
    (h₂ : o₂.apply c₁ k₂ = some (c₂, e₂)) :
    runPair c k₁ o₁ k₂ o₂ = some (c₂, e₁, e₂) := by
  simp [runPair, h₁, h₂]

theorem runPair_spec [Comparable K] [Inhabited V] (c : CacheKit K V) (k₁ k₂ : K)
    (o₁ o₂ : KeyOp V) (hne : k₁ ≠ k₂)
    (h : c.data.isSome = true ∨ (o₁.isSet = false ∧ o₂.isSet = false)) :
    ∃ c', runPair c k₁ o₁ k₂ o₂ =
        some (c', KeyOp.err k₁ o₁ (c.Has k₁), KeyOp.err k₂ o₂ (c.Has k₂)) ∧
      c'.Get k₁ = o₁.after (keq k₁ k₁) (c.Get k₁) ∧
      c'.Get k₂ = o₂.after (keq k₂ k₂) (c.Get k₂) ∧
      (∀ k, k ≠ k₁ → k ≠ k₂ → c'.Get k = c.Get k) ∧
      (c'.Len : Int) = c.Len + o₁.delta (c.Has k₁) + o₂.delta (c.Has k₂) := by
  have h₁ : c.data.isSome = true ∨ o₁.isSet = false := h.imp id And.left
  obtain ⟨c₁, e₁, ha₁⟩ := KeyOp.apply_progress c k₁ o₁ h₁
  obtain ⟨hg₁, hf₁, he₁, hs₁⟩ := KeyOp.apply_effect c c₁ k₁ o₁ e₁ ha₁
  have h₂ : c₁.data.isSome = true ∨ o₂.isSet = false := by
    rw [hs₁]
    exact h.imp id And.right
  obtain ⟨c₂, e₂, ha₂⟩ := KeyOp.apply_progress c₁ k₂ o₂ h₂
  obtain ⟨hg₂, hf₂, he₂, -⟩ := KeyOp.apply_effect c₁ c₂ k₂ o₂ e₂ ha₂
  have h₁₂ : keq k₁ k₂ = false := keq_eq_false_of_ne k₁ k₂ hne
  have h₂₁ : keq k₂ k₁ = false := keq_eq_false_of_ne k₂ k₁ (fun e => hne e.symm)
  have hget : c₁.Get k₂ = c.Get k₂ := hf₁ k₂ h₁₂
  have hhas : c₁.Has k₂ = c.Has k₂ := by
    rw [Has_eq_Get_snd, Has_eq_Get_snd, hget]
  refine ⟨c₂, ?_, ?_, ?_, ?_, ?_⟩
  · rw [runPair_eq c c₁ c₂ k₁ k₂ o₁ o₂ e₁ e₂ ha₁ ha₂, he₁, he₂, hhas]
  · rw [hf₂ k₁ h₂₁, hg₁]
  · rw [hg₂, hget]
  · intro k hk₁ hk₂
    rw [hf₂ k (keq_eq_false_of_ne k₂ k (fun e => hk₂ e.symm)),
      hf₁ k (keq_eq_false_of_ne k₁ k (fun e => hk₁ e.symm))]
  · rw [KeyOp.apply_len c₁ c₂ k₂ o₂ e₂ ha₂, KeyOp.apply_len c c₁ k₁ o₁ e₁ ha₁, hhas]

theorem runPair_none [Comparable K] [Inhabited V] (c : CacheKit K V) (k₁ k₂ : K)
    (o₁ o₂ : KeyOp V) (hc : c.data.isSome = false)
    (h : o₁.isSet = true ∨ o₂.isSet = true) : runPair c k₁ o₁ k₂ o₂ = none := by
  cases h₁ : o₁.isSet with
  | true => simp [runPair, KeyOp.apply_none c k₁ o₁ hc h₁]
  | false =>
    have h₂ : o₂.isSet = true := by
      rcases h with h | h
      · rw [h₁] at h
        exact absurd h (by simp)
      · exact h
    obtain ⟨c₁, e₁, ha₁⟩ := KeyOp.apply_progress c k₁ o₁ (Or.inr h₁)
    have hs₁ := (KeyOp.apply_effect c c₁ k₁ o₁ e₁ ha₁).2.2.2
    rw [hc] at hs₁
    simp [runPair, ha₁, KeyOp.apply_none c₁ k₂ o₂ hs₁ h₂]

theorem runPair_commute [Comparable K] [Inhabited V] (c : CacheKit K V) (k₁ k₂ : K)
    (o₁ o₂ : KeyOp V) (hne : k₁ ≠ k₂)
    (h : c.data.isSome = true ∨ (o₁.isSet = false ∧ o₂.isSet = false)) :
    ∃ c₁₂ c₂₁ e₁ e₂,
      runPair c k₁ o₁ k₂ o₂ = some (c₁₂, e₁, e₂) ∧
      runPair c k₂ o₂ k₁ o₁ = some (c₂₁, e₂, e₁) ∧
      c₁₂.Len = c₂₁.Len ∧ ∀ k, c₁₂.Get k = c₂₁.Get k := by
  obtain ⟨c₁₂, hr, ha, hb, hf, hl⟩ := runPair_spec c k₁ k₂ o₁ o₂ hne h
  obtain ⟨c₂₁, hr', hb', ha', hf', hl'⟩ :=
    runPair_spec c k₂ k₁ o₂ o₁ (fun e => hne e.symm) (h.imp id And.symm)
  have hget : ∀ k, c₁₂.Get k = c₂₁.Get k := by
    intro k
    by_cases hk₁ : k = k₁
    · rw [hk₁, ha, ha']
    · by_cases hk₂ : k = k₂
      · rw [hk₂, hb, hb']
      · rw [hf k hk₁ hk₂, hf' k hk₂ hk₁]
  have hlen : c₁₂.Len = c₂₁.Len := by
    have : (c₁₂.Len : Int) = c₂₁.Len := by
      rw [hl, hl']
      omega
    exact_mod_cast this
  exact ⟨c₁₂, c₂₁, _, _, hr, hr', hlen, hget⟩

/-- C18: for every cache state `c`, distinct keys `k₁`, `k₂` and any two of
`Set`, `Update`, `Delete`, one on `k₁` and one on `k₂`, the two orders end
alike: either both panic (a `Set` on the nil map of the zero value), or both
complete, reach states with the same `Len()` and the same `Get` result for
every key, and each call returns the same error in both orders.  On a map that
is not nil both orders complete. -/
theorem mutations_commute [Comparable K] [Inhabited V] (c : CacheKit K V) (k₁ k₂ : K)
    (o₁ o₂ : KeyOp V) (hne : k₁ ≠ k₂) :
    ((runPair c k₁ o₁ k₂ o₂ = none ∧ runPair c k₂ o₂ k₁ o₁ = none) ∨
      ∃ c₁₂ c₂₁ e₁ e₂,
        runPair c k₁ o₁ k₂ o₂ = some (c₁₂, e₁, e₂) ∧
        runPair c k₂ o₂ k₁ o₁ = some (c₂₁, e₂, e₁) ∧
        c₁₂.Len = c₂₁.Len ∧ ∀ k, c₁₂.Get k = c₂₁.Get k) ∧
      (c.data.isSome = true →
        (runPair c k₁ o₁ k₂ o₂).isSome = true ∧ (runPair c k₂ o₂ k₁ o₁).isSome = true) := by
  constructor
  · cases hc : c.data.isSome with
    | true => exact Or.inr (runPair_commute c k₁ k₂ o₁ o₂ hne (Or.inl hc))
    | false =>
      cases h₁ : o₁.isSet with
      | true =>
        exact Or.inl ⟨runPair_none c k₁ k₂ o₁ o₂ hc (Or.inl h₁),
          runPair_none c k₂ k₁ o₂ o₁ hc (Or.inr h₁)⟩
      | false =>
        cases h₂ : o₂.isSet with
        | true =>
          exact Or.inl ⟨runPair_none c k₁ k₂ o₁ o₂ hc (Or.inr h₂),
            runPair_none c k₂ k₁ o₂ o₁ hc (Or.inl h₂)⟩
        | false => exact Or.inr (runPair_commute c k₁ k₂ o₁ o₂ hne (Or.inr ⟨h₁, h₂⟩))
  · intro hc
    obtain ⟨c₁₂, c₂₁, e₁, e₂, hr, hr', -⟩ := runPair_commute c k₁ k₂ o₁ o₂ hne (Or.inl hc)
    rw [hr, hr']
    exact ⟨rfl, rfl⟩

/-- On the sample cache, `Set(4, 40)` and `Update(9, 5)` (key 9 is absent)
commute. -/
theorem mutations_commute_witness :
    (4 : Nat) ≠ 9 ∧
      ((runPair sample 4 (KeyOp.set 40) 9 (KeyOp.update 5) = none ∧
          runPair sample 9 (KeyOp.update 5) 4 (KeyOp.set 40) = none) ∨
        ∃ c₁₂ c₂₁ e₁ e₂,
          runPair sample 4 (KeyOp.set 40) 9 (KeyOp.update 5) = some (c₁₂, e₁, e₂) ∧
          runPair sample 9 (KeyOp.update 5) 4 (KeyOp.set 40) = some (c₂₁, e₂, e₁) ∧
          c₁₂.Len = c₂₁.Len ∧ ∀ k, c₁₂.Get k = c₂₁.Get k) ∧
      (sample.data.isSome = true →
        (runPair sample 4 (KeyOp.set 40) 9 (KeyOp.update 5)).isSome = true ∧
          (runPair sample 9 (KeyOp.update 5) 4 (KeyOp.set 40)).isSome = true) :=
  ⟨by decide, mutations_commute sample 4 9 (KeyOp.set 40) (KeyOp.update 5) (by decide)⟩

/-! ## Delete after a fresh insertion -/

theorem runOps_append [Comparable K] [Inhabited V] (c : CacheKit K V) (a b : List (Op K V)) :
    runOps c (a ++ b) = (runOps c a).bind (fun c' => runOps c' b) := by
  induction a generalizing c with
  | nil => rfl
  | cons op a ih =>
    simp only [List.cons_append, runOps]
    cases op.apply c with
    | none => rfl
    | some c₁ => exact ih c₁

theorem runOps_sets [Comparable K] [Inhabited V] (kvs : List (K × V)) (c : CacheKit K V)
    (h : c.data.isSome = true) :
    ∃ c', runOps c (kvs.map (fun e => Op.set e.1 e.2)) = some c' ∧
      ∀ k, c'.Has k = true → c.Has k = true ∨ k ∈ entryKeys kvs := by
  induction kvs generalizing c with
  | nil => exact ⟨c, rfl, fun _ hk => Or.inl hk⟩
  | cons e kvs ih =>
    obtain ⟨t, ht⟩ := data_eq_some_of_isSome c h
    have hset := Set_of_table c t e.1 e.2 ht
    obtain ⟨c', hrun, hhas⟩ := ih _ (Set_isSome c _ e.1 e.2 hset).2
    refine ⟨c', ?_, ?_⟩
    · simp only [List.map_cons, runOps, Op.apply, hset, Option.some_bind]
      exact hrun
    · intro k hk
      by_cases hke : k = e.1
      · exact Or.inr (by simp [entryKeys, hke])
      · rcases hhas k hk with h₁ | h₁
        · left
          rw [Has_eq_Get_snd, Get_Set_other c _ e.1 k e.2 hset hke] at h₁
          exact h₁
        · exact Or.inr (by
            simp only [entryKeys, List.map_cons, List.mem_cons]
            exact Or.inr h₁)

theorem runOps_deletes [Comparable K] [Inhabited V] (ds : List K) (c : CacheKit K V) :
    ∃ c', runOps c (ds.map (fun k => (Op.delete k : Op K V))) = some c' ∧
      ∀ k, c'.Has k = true → c.Has k = true ∧ k ∉ ds := by
  induction ds generalizing c with
  | nil => exact ⟨c, rfl, fun _ hk => ⟨hk, List.not_mem_nil _⟩⟩
  | cons d ds ih =>
    obtain ⟨c', hrun, hhas⟩ := ih (c.Delete d)
    refine ⟨c', ?_, ?_⟩
    · simp only [List.map_cons, runOps, Op.apply, Option.some_bind]
      exact hrun
    · intro k hk
      obtain ⟨h₁, h₂⟩ := hhas k hk
      have hkd : k ≠ d := by
        intro e
        rw [e, Has_eq_Get_snd, Get_Delete_same c d] at h₁
        exact Bool.false_ne_true h₁
      rw [Has_eq_Get_snd, Get_Delete_other c d k hkd] at h₁
      refine ⟨h₁, ?_⟩
      simp only [List.mem_cons, not_or]
      exact ⟨hkd, h₂⟩

theorem Len_eq_zero_of_Has [Comparable K] [Inhabited V] (c : CacheKit K V)
    (hs : c.selfEqualKeys = true) (h : ∀ k, c.Has k = false) : c.Len = 0 := by
  have hset : {k | c.Has k = true} = (∅ : Set K) := by
    ext k
    simp [h k]
  rw [Len_eq_ncard c hs, hset, Set.ncard_empty]

theorem selfEqualKey_sets_deletes [Comparable K] (kvs : List (K × V)) (ds : List K)
    (h : ∀ k ∈ entryKeys kvs, keq k k = true) :
    ∀ op ∈ kvs.map (fun e => Op.set e.1 e.2) ++ ds.map (fun d => (Op.delete d : Op K V)),
      op.selfEqualKey = true := by
  intro op hop
  rcases List.mem_append.1 hop with h₁ | h₁
  · obtain ⟨e, he, rfl⟩ := List.mem_map.1 h₁
    exact h e.1 (List.mem_map_of_mem Prod.fst he)
  · obtain ⟨d, -, rfl⟩ := List.mem_map.1 h₁
    rfl

/-- C19 (as stated, refuted): on the zero value of `CacheKit`, whose map is nil,
key 1 is absent but `Set(1, 10)` panics, so no `Delete(1)` follows that could
bring the cache back to its state; and on a cache with `float64` keys made by
`New()` the key NaN is absent, `Set(NaN, 1)` adds an entry and `Delete(NaN)`
removes none, so `Len()` ends at 1 where it was 0. -/
theorem Set_then_Delete_fails :
    ((zeroValue : CacheKit Nat Int).Has 1 = false ∧
      ¬ ∃ c' : CacheKit Nat Int,
        (zeroValue : CacheKit Nat Int).Set 1 10 = some c' ∧
          (c'.Delete 1).Len = (zeroValue : CacheKit Nat Int).Len ∧
          ∀ k', (c'.Delete 1).Get k' = (zeroValue : CacheKit Nat Int).Get k') ∧
      (floatCache.Has Float64.nan = false ∧ floatCache.Len = 0 ∧
        (floatCache.Set Float64.nan 1).map (fun c' => (c'.Delete Float64.nan).Len) =
          some 1 ∧
        (runOps floatCache [Op.set Float64.nan 1, Op.delete Float64.nan]).map
          (fun c' => c'.Len) = some 1) := by
  refine ⟨⟨rfl, ?_⟩, rfl, rfl, rfl, rfl⟩
  rintro ⟨c', h, -⟩
  simp [zeroValue, CacheKit.Set, GoMap.assign] at h

/-- C19 (amended): for every cache state `c` whose map is not nil, key `k` with
`k == k` that is absent from `c`, and value `v`, `Set(k, v)` completes and a
following `Delete(k)` yields a state with the `Len()` of `c` and the `Get`
result of `c` for every key; and inserting entries with distinct keys, each
`==` to itself, into `New()` and then deleting each of these keys, in any
order, completes and returns `Len()` to 0. -/
theorem Set_then_Delete [Comparable K] [Inhabited V] (c : CacheKit K V) (k : K) (v : V)
    (h : c.data.isSome = true) (hk : keq k k = true) (habs : c.Has k = false) :
    (∃ c', c.Set k v = some c' ∧ (c'.Delete k).Len = c.Len ∧
        ∀ k', (c'.Delete k).Get k' = c.Get k') ∧
      ∀ (kvs : List (K × V)) (ds : List K), (∀ k' ∈ entryKeys kvs, keq k' k' = true) →
        (entryKeys kvs).Nodup → ds.Perm (entryKeys kvs) →
        ∃ c₀ : CacheKit K V,
          runOps New (kvs.map (fun e => Op.set e.1 e.2) ++
            ds.map (fun d => (Op.delete d : Op K V))) = some c₀ ∧ c₀.Len = 0 := by
  constructor
  · obtain ⟨t, ht⟩ := data_eq_some_of_isSome c h
    obtain ⟨c', hset⟩ : ∃ c', c.Set k v = some c' := ⟨_, Set_of_table c t k v ht⟩
    have hget : ∀ k', (c'.Delete k).Get k' = c.Get k' := by
      intro k'
      by_cases hkk : k' = k
      · subst hkk
        rw [Get_Delete_same, Get_eq_access]
        exact (access_of_lookup_none c.data k' ((Has_eq_false_iff c k').1 habs)).symm
      · rw [Get_Delete_other c' k k' hkk, Get_Set_other c c' k k' v hset hkk]
    refine ⟨c', hset, ?_, hget⟩
    have hl := Len_Delete c' k
    have hhas : c'.Has k = true := by
      rw [Has_eq_Get_snd, Get_Set_same c c' k v hset hk]
    rw [if_pos hhas, Len_Set c c' k v hset, habs] at hl
    simpa using hl
  · intro kvs ds hself _ hperm
    obtain ⟨c₁, hrun₁, hhas₁⟩ := runOps_sets kvs (New : CacheKit K V) rfl
    obtain ⟨c₀, hrun₀, hhas₀⟩ := runOps_deletes ds c₁
    have hrun : runOps New (kvs.map (fun e => Op.set e.1 e.2) ++
        ds.map (fun d => (Op.delete d : Op K V))) = some c₀ := by
      rw [runOps_append, hrun₁]
      exact hrun₀
    refine ⟨c₀, hrun, Len_eq_zero_of_Has c₀ ?_ ?_⟩
    · exact runOps_selfEqual _ New c₀ hrun rfl (selfEqualKey_sets_deletes kvs ds hself)
    · intro k
      cases hk : c₀.Has k with
      | false => rfl
      | true =>
        obtain ⟨h₁, h₂⟩ := hhas₀ k hk
        rcases hhas₁ k h₁ with h₃ | h₃
        · exact absurd h₃ (by simp [CacheKit.Has, New, GoMap.access, GoMap.make,
            GoMap.entries, lookupEntries])
        · exact absurd (hperm.mem_iff.2 h₃) h₂

/-- On the sample cache, the fresh key 5 is inserted and deleted again; and in
a new cache, keys 1 and 2 are inserted and then deleted in the other order. -/
theorem Set_then_Delete_witness :
    sample.data.isSome = true ∧ keq (5 : Nat) 5 = true ∧ sample.Has 5 = false ∧
      (∃ c', sample.Set 5 50 = some c' ∧ (c'.Delete 5).Len = sample.Len ∧
          ∀ k', (c'.Delete 5).Get k' = sample.Get k') ∧
      (∀ k' ∈ entryKeys [((1 : Nat), (10 : Int)), (2, 20)], keq k' k' = true) ∧
      (entryKeys [((1 : Nat), (10 : Int)), (2, 20)]).Nodup ∧
      [(2 : Nat), 1].Perm (entryKeys [((1 : Nat), (10 : Int)), (2, 20)]) ∧
      ∃ c₀ : CacheKit Nat Int,
        runOps New ([((1 : Nat), (10 : Int)), (2, 20)].map (fun e => Op.set e.1 e.2) ++
          [(2 : Nat), 1].map (fun d => (Op.delete d : Op Nat Int))) = some c₀ ∧ c₀.Len = 0 :=
  ⟨by decide, by decide, by decide,
    (Set_then_Delete sample 5 50 (by decide) (by decide) (by decide)).1,
    by decide, by decide, by decide,
    (Set_then_Delete sample 5 50 (by decide) (by decide) (by decide)).2 [(1, 10), (2, 20)]
      [2, 1] (by decide) (by decide) (by decide)⟩

end Cachekit
